import Mathlib

/-!
# markdown-parser-c: the line classifier and the HTML renderer

A shallow embedding of `src/main.c`.

* A C string is a `List Char`, one `Char` per byte (the program never calls
  `setlocale`, so `regexec` works byte by byte in the "C" locale).
* The singly linked document (`MdNode* next`) is a `List MdNode`.
* The input file is the `List Char` of its bytes, NUL bytes included; `fgets` returns
  the bytes it stores and the rest of the stream, the buffer is read back as a C string
  (up to its first NUL byte), and the read loop of `main` is run with a bound on the
  number of `fgets` calls that is shown to be sufficient.
* `regcomp`/`regexec` belong to the C library, not to the repository.  They are
  embedded for the fragment of POSIX extended regular expressions that the seven
  patterns of `md_regexes_create` use: a sequence of duplicated one-character atoms
  with at most one parenthesised group.  `regexec` follows the POSIX matching rule:
  the match starts at the leftmost possible position, is the longest match starting
  there, and, consistent with that, each piece from left to right is as long as
  possible.
-/

namespace MdParser

/-! ## Constants and the data model -/

/-- The constant `MAX_LINE_SIZE`: `#define MAX_LINE_SIZE 1024`. -/
def MAX_LINE_SIZE : Nat := 1024

/-- The constant `MAX_CAPTURE_SIZE`: `#define MAX_CAPTURE_SIZE 1024`. -/
def MAX_CAPTURE_SIZE : Nat := 1024

/-- The largest `size_t` value plus one (64-bit target). -/
def SIZE_MOD : Nat := 2 ^ 64

/-- The enumeration `MdNodeType` of node kinds, in the order of the source. -/
inductive MdNodeType
  | MD_TYPE_HEADING_1
  | MD_TYPE_HEADING_2
  | MD_TYPE_HEADING_3
  | MD_TYPE_TEXT_BOLD
  | MD_TYPE_TEXT_ITALICS
  | MD_TYPE_BLOCK_QUOTE
  | MD_TYPE_TEXT
  | MD_TYPE_LINE
  deriving DecidableEq

/-- The record `struct MdNode` without its `next` pointer: the chain is the enclosing
list. -/
structure MdNode where
  type : MdNodeType
  content : List Char
  deriving DecidableEq

/-- The call `strncpy(dst, src, n)` followed by reading `dst` back as a C string: the
first `n` bytes of `src`.  (When `src` has `n` bytes or more, `strncpy` stores no
terminator; the embedding keeps the `n` bytes that were copied.) -/
def strncpy (src : List Char) (n : Nat) : List Char := src.take n

/-- The function `md_list_append`: a new node is allocated, its content is copied with
`strncpy(..., sizeof(new_node->content))`, and it is linked after the last node. -/
def md_list_append : List MdNode → MdNodeType → List Char → List MdNode
  | [], type, content => [⟨type, strncpy content MAX_LINE_SIZE⟩]
  | node :: next, type, content => node :: md_list_append next type content

/-! ## POSIX extended regular expressions (the fragment used by the patterns) -/

/-- A one-character atom: an ordinary character or `.`. -/
inductive Atom
  | chr (c : Char)
  | dot
  deriving DecidableEq

/-- The duplication that follows an atom: none, `*`, `+`, or `*?`.  POSIX has no lazy
duplication: `*?` is the duplication `?` applied to `x*`, which matches exactly the
strings `x*` matches. -/
inductive Dup
  | one
  | star
  | plus
  | starOpt
  deriving DecidableEq

/-- An atom with its duplication. -/
structure Piece where
  atom : Atom
  dup : Dup
  deriving DecidableEq

/-- A compiled pattern: the pieces before the group, the pieces inside the group
(`none` when the pattern has no parentheses), and the pieces after it. -/
structure regex_t where
  pre : List Piece
  grp : Option (List Piece)
  post : List Piece

/-- The record `regmatch_t`: byte offsets of a match, `-1` when unset. -/
structure regmatch_t where
  rm_so : Int
  rm_eo : Int
  deriving DecidableEq

/-- Whether an atom matches a character. -/
def Atom.accepts : Atom → Char → Bool
  | .chr c, x => x == c
  | .dot, _ => true

/-- Whether a duplication permits `k` repetitions. -/
def Dup.allows : Dup → Nat → Bool
  | .one, k => k == 1
  | .star, _ => true
  | .plus, k => decide (1 ≤ k)
  | .starOpt, _ => true

/-- Whether the piece can match exactly the first `k` characters of `w`. -/
def Piece.admits (p : Piece) (w : List Char) (k : Nat) : Bool :=
  decide (k ≤ w.length) && ((w.take k).all p.atom.accepts && p.dup.allows k)

/-- Every length the piece can match at the head of `w`. -/
def Piece.lengths (p : Piece) (w : List Char) : List Nat :=
  (List.range (w.length + 1)).filter (p.admits w)

/-- Every way to match the pieces, in order, against a prefix of `w`: one length per
piece. -/
def splits : List Piece → List Char → List (List Nat)
  | [], _ => [[]]
  | p :: ps, w => (p.lengths w).flatMap fun k => (splits ps (w.drop k)).map fun ks => k :: ks

/-- Lexicographic order on length lists: `lexLe x y` when `x` is at most `y`. -/
def lexLe : List Nat → List Nat → Bool
  | [], _ => true
  | _ :: _, [] => false
  | a :: x, b :: y => decide (a < b) || (a == b && lexLe x y)

/-- The POSIX preference: `y` is at least as good as `x` when it is longer overall,
or as long with the earlier pieces longer. -/
def atLeast (x y : List Nat) : Bool := lexLe (x.sum :: x) (y.sum :: y)

/-- The preferred element of a list of splits. -/
def best : List (List Nat) → Option (List Nat)
  | [] => none
  | x :: xs =>
    match best xs with
    | none => some x
    | some y => if atLeast y x then some x else some y

/-- The leftmost start offset at which the pieces match, with the preferred split
there; `i` is the offset of `w` in the searched string. -/
def search (ps : List Piece) : Nat → List Char → Option (Nat × List Nat)
  | i, [] => (best (splits ps [])).map fun ks => (i, ks)
  | i, c :: w =>
    match best (splits ps (c :: w)) with
    | some ks => some (i, ks)
    | none => search ps (i + 1) w

/-- All pieces of a pattern in order. -/
def regex_t.pieces (r : regex_t) : List Piece := r.pre ++ (r.grp.getD [] ++ r.post)

/-- The call `regexec(&preg, string, 2, pmatch, 0)`: `none` is `REG_NOMATCH`, otherwise
`pmatch[0]` (the whole match) and `pmatch[1]` (the group, both offsets `-1` when the
pattern has none). -/
def regexec (preg : regex_t) (string : List Char) : Option (regmatch_t × regmatch_t) :=
  match search preg.pieces 0 string with
  | none => none
  | some (i, ks) =>
    match preg.grp with
    | none => some (⟨i, i + ks.sum⟩, ⟨-1, -1⟩)
    | some g =>
      let so : Nat := i + (ks.take preg.pre.length).sum
      let eo : Nat := so + ((ks.drop preg.pre.length).take g.length).sum
      some (⟨i, i + ks.sum⟩, ⟨so, eo⟩)

/-! ## The program -/

/-- The function `match_no_capture`: whether `regexec` finds a match. -/
def match_no_capture (regex : regex_t) (content : List Char) : Bool :=
  (regexec regex content).isSome

/-- The function `match_single_capture`: `none` is `false`; `some capture` is `true` with the
bytes written to `capture`.  `capture_size - 1` is `size_t` arithmetic. -/
def match_single_capture (regex : regex_t) (content : List Char) (capture_size : Nat) :
    Option (List Char) :=
  match regexec regex content with
  | none => none
  | some (_, m1) =>
    if m1.rm_so ≠ -1 ∧ m1.rm_eo ≠ -1 then
      let capture_len : Int := m1.rm_eo - m1.rm_so
      if capture_len > 0 ∧ capture_len < (((capture_size + SIZE_MOD - 1) % SIZE_MOD : Nat) : Int) then
        some (strncpy (content.drop m1.rm_so.toNat) capture_len.toNat)
      else none
    else none

/-- The record `MdRegexes` of the seven compiled patterns. -/
structure MdRegexes where
  heading_1 : regex_t
  heading_2 : regex_t
  heading_3 : regex_t
  text_bold : regex_t
  text_italics : regex_t
  block_quote : regex_t
  line : regex_t

/-- The piece for one ordinary character. -/
def lit (c : Char) : Piece := ⟨.chr c, .one⟩

/-- The function `md_regexes_create`: the seven patterns, compiled with `REG_EXTENDED`.
`"# +(.*)"`, `"## +(.*)"`, `"### +(.*)"`, `"\\*\\*(.*?)\\*\\*"`, `"\\*(.*?)\\*"`,
`"> *(.*)"`, `" *- *- *-.*"`. -/
def md_regexes_create : MdRegexes where
  heading_1 := ⟨[lit '#', ⟨.chr ' ', .plus⟩], some [⟨.dot, .star⟩], []⟩
  heading_2 := ⟨[lit '#', lit '#', ⟨.chr ' ', .plus⟩], some [⟨.dot, .star⟩], []⟩
  heading_3 := ⟨[lit '#', lit '#', lit '#', ⟨.chr ' ', .plus⟩], some [⟨.dot, .star⟩], []⟩
  text_bold := ⟨[lit '*', lit '*'], some [⟨.dot, .starOpt⟩], [lit '*', lit '*']⟩
  text_italics := ⟨[lit '*'], some [⟨.dot, .starOpt⟩], [lit '*']⟩
  block_quote := ⟨[lit '>', ⟨.chr ' ', .star⟩], some [⟨.dot, .star⟩], []⟩
  line := ⟨[⟨.chr ' ', .star⟩, lit '-', ⟨.chr ' ', .star⟩, lit '-', ⟨.chr ' ', .star⟩, lit '-',
            ⟨.dot, .star⟩], none, []⟩

/-- The function `match_md`: the rules are tried in the order of the `if`/`else if` chain and the
first that succeeds appends its node. -/
def match_md (r : MdRegexes) (content : List Char) (md_list : List MdNode) : List MdNode :=
  match match_single_capture r.heading_3 content MAX_CAPTURE_SIZE with
  | some capture => md_list_append md_list .MD_TYPE_HEADING_3 capture
  | none =>
  match match_single_capture r.heading_2 content MAX_CAPTURE_SIZE with
  | some capture => md_list_append md_list .MD_TYPE_HEADING_2 capture
  | none =>
  match match_single_capture r.heading_1 content MAX_CAPTURE_SIZE with
  | some capture => md_list_append md_list .MD_TYPE_HEADING_1 capture
  | none =>
  match match_single_capture r.block_quote content MAX_CAPTURE_SIZE with
  | some capture => md_list_append md_list .MD_TYPE_BLOCK_QUOTE capture
  | none =>
  if match_no_capture r.line content then
    md_list_append md_list .MD_TYPE_LINE []
  else
  match match_single_capture r.text_bold content MAX_CAPTURE_SIZE with
  | some capture => md_list_append md_list .MD_TYPE_TEXT_BOLD capture
  | none =>
  match match_single_capture r.text_italics content MAX_CAPTURE_SIZE with
  | some capture => md_list_append md_list .MD_TYPE_TEXT_ITALICS capture
  | none => md_list_append md_list .MD_TYPE_TEXT content

/-- The call `snprintf(result, size, ...)` followed by reading `result` back: the formatted
text cut to `size - 1` bytes. -/
def snprintf (size : Nat) (formatted : List Char) : List Char := formatted.take (size - 1)

/-- The function `md_node_to_html`: the text left in `result`. -/
def md_node_to_html (node : MdNode) (result_size : Nat) : List Char :=
  match node.type with
  | .MD_TYPE_HEADING_1 => snprintf result_size ("<h1>".toList ++ node.content ++ "</h1>\n".toList)
  | .MD_TYPE_HEADING_2 => snprintf result_size ("<h2>".toList ++ node.content ++ "</h2>\n".toList)
  | .MD_TYPE_HEADING_3 => snprintf result_size ("<h3>".toList ++ node.content ++ "</h3>\n".toList)
  | .MD_TYPE_TEXT_BOLD => snprintf result_size ("<b>".toList ++ node.content ++ "</b><br />\n".toList)
  | .MD_TYPE_TEXT_ITALICS =>
    snprintf result_size ("<i>".toList ++ node.content ++ "</i><br />\n".toList)
  | .MD_TYPE_BLOCK_QUOTE =>
    snprintf result_size ("<blockquote>".toList ++ node.content ++ "</blockquote>\n".toList)
  | .MD_TYPE_TEXT => snprintf result_size (node.content ++ "<br />\n".toList)
  | .MD_TYPE_LINE => snprintf result_size "<hr />\n".toList

/-- The function `write_md_to_html`: every node of the chain is rendered into a
`MAX_LINE_SIZE` buffer and written to `out` with `fputs`; the result is the text of
`out` afterwards. -/
def write_md_to_html (out : List Char) : List MdNode → List Char
  | [] => out
  | node :: next => write_md_to_html (out ++ md_node_to_html node MAX_LINE_SIZE) next

/-- The bytes one `fgets` call stores when it may still store `n` bytes, and the rest
of the stream: reading stops after a newline, at the end of the stream, or when the
buffer is full. -/
def fgets_read : Nat → List Char → List Char × List Char
  | 0, stream => ([], stream)
  | _ + 1, [] => ([], [])
  | n + 1, c :: stream =>
    if c = '\n' then ([c], stream)
    else (c :: (fgets_read n stream).1, (fgets_read n stream).2)

/-- The call `fgets(buffer, size, stream)`: `none` is `NULL` (end of file with nothing
read), otherwise the string stored in the buffer (at most `size - 1` bytes) and the
rest of the stream. -/
def fgets (size : Nat) (stream : List Char) : Option (List Char × List Char) :=
  match stream with
  | [] => none
  | _ :: _ => some (fgets_read (size - 1) stream)

/-- The call `strcspn(s, reject)` on the C string held in the buffer `s`: the length
of the longest prefix of the string without a character of `reject`.  The string ends
at the first NUL byte of the buffer (`fgets` stores NUL bytes of the file like any
other byte), so the count stops there as well. -/
def strcspn (s reject : List Char) : Nat :=
  (s.takeWhile fun c => c != '\x00' && !reject.contains c).length

/-- The `while (fgets(...) != NULL)` loop of `main`: a terminator is stored at the
index `strcspn` returns, so the C string left in the buffer is the buffer cut at its
first `\r`, `\n` or NUL byte; that string is what `strcmp` tests and, when non-empty,
what `match_md` receives.  The loop is run with a bound `fuel` on the number of `fgets`
calls; `none` means the bound was reached. -/
def read_loop (regexes : MdRegexes) : Nat → List Char → List MdNode → Option (List MdNode)
  | 0, _, _ => none
  | fuel + 1, in_file, md_list =>
    match fgets MAX_LINE_SIZE in_file with
    | none => some md_list
    | some (line_buffer, rest) =>
      if line_buffer.take (strcspn line_buffer ['\r', '\n']) ≠ [] then
        read_loop regexes fuel rest
          (match_md regexes (line_buffer.take (strcspn line_buffer ['\r', '\n'])) md_list)
      else read_loop regexes fuel rest md_list

/-- The function `main` on the content of the input file (both files open): the text
written to the output file.  Every `fgets` call consumes at least one byte, so one
call more than the file has bytes is enough. -/
def main (in_file : List Char) : Option (List Char) :=
  (read_loop md_regexes_create (in_file.length + 1) in_file []).map (write_md_to_html [])

/-! ## Definitions used to state the properties -/

/-- Number of pieces of the pattern that must consume at least one `c`. -/
def need (c : Char) : List Piece → Nat
  | [] => 0
  | p :: ps => (if p.atom = .chr c ∧ (p.dup = .one ∨ p.dup = .plus) then 1 else 0) + need c ps

/-- The pattern with `j` hashes, `#…# +(.*)`: the heading patterns are `headingRe 1`,
`headingRe 2` and `headingRe 3`. -/
def headingRe (j : Nat) : regex_t :=
  ⟨List.replicate j (lit '#') ++ [⟨.chr ' ', .plus⟩], some [⟨.dot, .star⟩], []⟩

/-- Length of the full template expansion of a node: the payload plus the markup of
its kind (the thematic break has no payload). -/
def expansionLength (node : MdNode) : Nat :=
  match node.type with
  | .MD_TYPE_HEADING_1 => node.content.length + 10
  | .MD_TYPE_HEADING_2 => node.content.length + 10
  | .MD_TYPE_HEADING_3 => node.content.length + 10
  | .MD_TYPE_TEXT_BOLD => node.content.length + 14
  | .MD_TYPE_TEXT_ITALICS => node.content.length + 14
  | .MD_TYPE_BLOCK_QUOTE => node.content.length + 26
  | .MD_TYPE_TEXT => node.content.length + 7
  | .MD_TYPE_LINE => 7

/-- Whether the pattern matches the line with a non-empty group. -/
def capturesNonEmpty (re : regex_t) (content : List Char) : Bool :=
  match regexec re content with
  | some (_, m1) => decide (m1.rm_so < m1.rm_eo)
  | none => false

/-- Whether none of the seven rules matches the line: no capturing pattern matches
with a non-empty group and the thematic-break pattern does not match. -/
def noRuleMatches (r : MdRegexes) (content : List Char) : Bool :=
  !capturesNonEmpty r.heading_3 content && !capturesNonEmpty r.heading_2 content &&
  !capturesNonEmpty r.heading_1 content && !capturesNonEmpty r.block_quote content &&
  !match_no_capture r.line content && !capturesNonEmpty r.text_bold content &&
  !capturesNonEmpty r.text_italics content

/-- Kind of the last node of a document: after `match_md`, the kind the line was
classified as. -/
def lastType (md_list : List MdNode) : Option MdNodeType := md_list.getLast?.map MdNode.type

/-- A line that starts with three hyphens separated by optional spaces:
`a` spaces, `-`, `b` spaces, `-`, `c` spaces, `-`, then `rest`. -/
def thematicLine (a b c : Nat) (rest : List Char) : List Char :=
  List.replicate a ' ' ++ ('-' :: (List.replicate b ' ' ++
    ('-' :: (List.replicate c ' ' ++ ('-' :: rest)))))

/-- Whether the text contains none of the characters `#`, `>`, `-`, `*`. -/
def noSpecial (s : List Char) : Bool :=
  s.all fun c => c != '#' && c != '>' && c != '-' && c != '*'

/-- The full template expansion of a node, before it is cut to the output buffer. -/
def template (node : MdNode) : List Char :=
  match node.type with
  | .MD_TYPE_HEADING_1 => "<h1>".toList ++ node.content ++ "</h1>\n".toList
  | .MD_TYPE_HEADING_2 => "<h2>".toList ++ node.content ++ "</h2>\n".toList
  | .MD_TYPE_HEADING_3 => "<h3>".toList ++ node.content ++ "</h3>\n".toList
  | .MD_TYPE_TEXT_BOLD => "<b>".toList ++ node.content ++ "</b><br />\n".toList
  | .MD_TYPE_TEXT_ITALICS => "<i>".toList ++ node.content ++ "</i><br />\n".toList
  | .MD_TYPE_BLOCK_QUOTE => "<blockquote>".toList ++ node.content ++ "</blockquote>\n".toList
  | .MD_TYPE_TEXT => node.content ++ "<br />\n".toList
  | .MD_TYPE_LINE => "<hr />\n".toList

/-- The line as the read loop hands it to `match_md`: cut at its first `\r`, `\n` or
NUL byte. -/
def stripped (line : List Char) : List Char := line.take (strcspn line ['\r', '\n'])

/-- The terminator of an input line: `\r\n` or `\n`. -/
def terminator (crlf : Bool) : List Char := if crlf then ['\r', '\n'] else ['\n']

/-- The content of an input file: every line of `lines` followed by its terminator,
then a last line without terminator (empty when the file ends with a terminator). -/
def inputFile (lines : List (List Char × Bool)) (last : List Char) : List Char :=
  (lines.flatMap fun l => l.1 ++ terminator l.2) ++ last

/-- The HTML fragment of the node `match_md` gives a line. -/
def lineHtml (line : List Char) : List Char :=
  (match_md md_regexes_create line []).flatMap fun node => md_node_to_html node MAX_LINE_SIZE

/-- The six capturing patterns. -/
def capturingPatterns (r : MdRegexes) : List regex_t :=
  [r.heading_3, r.heading_2, r.heading_1, r.block_quote, r.text_bold, r.text_italics]

/-! ## The preference order -/

theorem lexLe_refl (x : List Nat) : lexLe x x = true := by
  induction x with
  | nil => rfl
  | cons a x ih => simp [lexLe, ih]

theorem lexLe_total (x y : List Nat) : lexLe x y = true ∨ lexLe y x = true := by
  induction x generalizing y with
  | nil => left; rfl
  | cons a x ih =>
    cases y with
    | nil => right; rfl
    | cons b y =>
      simp only [lexLe, Bool.or_eq_true, Bool.and_eq_true, decide_eq_true_eq, beq_iff_eq]
      rcases Nat.lt_trichotomy a b with h | h | h
      · left; left; exact h
      · subst h
        rcases ih y with h1 | h1
        · left; right; exact ⟨rfl, h1⟩
        · right; right; exact ⟨rfl, h1⟩
      · right; left; exact h

theorem lexLe_trans {x y z : List Nat} (h1 : lexLe x y = true) (h2 : lexLe y z = true) :
    lexLe x z = true := by
  induction x generalizing y z with
  | nil => rfl
  | cons a x ih =>
    cases y with
    | nil => simp [lexLe] at h1
    | cons b y =>
      cases z with
      | nil => simp [lexLe] at h2
      | cons c z =>
        simp only [lexLe, Bool.or_eq_true, Bool.and_eq_true, decide_eq_true_eq, beq_iff_eq]
          at h1 h2 ⊢
        rcases h1 with h1 | ⟨h1, h1'⟩
        · rcases h2 with h2 | ⟨h2, _⟩
          · left; omega
          · left; omega
        · rcases h2 with h2 | ⟨h2, h2'⟩
          · left; omega
          · right; exact ⟨by omega, ih h1' h2'⟩

theorem lexLe_antisymm {x y : List Nat} (h1 : lexLe x y = true) (h2 : lexLe y x = true) :
    x = y := by
  induction x generalizing y with
  | nil =>
    cases y with
    | nil => rfl
    | cons b y => simp [lexLe] at h2
  | cons a x ih =>
    cases y with
    | nil => simp [lexLe] at h1
    | cons b y =>
      simp only [lexLe, Bool.or_eq_true, Bool.and_eq_true, decide_eq_true_eq, beq_iff_eq]
        at h1 h2
      rcases h1 with h1 | ⟨h1, h1'⟩
      · rcases h2 with h2 | ⟨h2, _⟩ <;> omega
      · rcases h2 with h2 | ⟨_, h2'⟩
        · omega
        · rw [h1, ih h1' h2']

theorem lexLe_append_left (p x y : List Nat) : lexLe (p ++ x) (p ++ y) = lexLe x y := by
  induction p with
  | nil => rfl
  | cons a p ih => simp [lexLe, ih]

theorem atLeast_iff (x y : List Nat) :
    atLeast x y = true ↔ x.sum < y.sum ∨ (x.sum = y.sum ∧ lexLe x y = true) := by
  simp [atLeast, lexLe]

theorem best_eq_none {l : List (List Nat)} : best l = none ↔ l = [] := by
  cases l with
  | nil => simp [best]
  | cons x xs =>
    simp only [best]
    cases best xs with
    | none => simp
    | some y => by_cases h : atLeast y x = true <;> simp [h]

theorem best_mem {l : List (List Nat)} {b : List Nat} (h : best l = some b) : b ∈ l := by
  induction l generalizing b with
  | nil => simp [best] at h
  | cons x xs ih =>
    simp only [best] at h
    cases hb : best xs with
    | none =>
      rw [hb] at h
      simp only [Option.some.injEq] at h
      simp [h]
    | some y =>
      rw [hb] at h
      by_cases hc : atLeast y x = true
      · simp only [hc, if_true, Option.some.injEq] at h
        simp [h]
      · simp only [hc, Bool.false_eq_true, if_false, Option.some.injEq] at h
        subst h
        exact List.mem_cons_of_mem _ (ih hb)

theorem best_ge {l : List (List Nat)} {b : List Nat} (h : best l = some b) :
    ∀ y ∈ l, atLeast y b = true := by
  induction l generalizing b with
  | nil => simp [best] at h
  | cons x xs ih =>
    simp only [best] at h
    cases hb : best xs with
    | none =>
      rw [hb] at h
      simp only [Option.some.injEq] at h
      subst h
      have : xs = [] := best_eq_none.mp hb
      subst this
      intro y hy
      simp only [List.mem_singleton] at hy
      subst hy
      exact lexLe_refl _
    | some z =>
      rw [hb] at h
      by_cases hc : atLeast z x = true
      · simp only [hc, if_true, Option.some.injEq] at h
        subst h
        intro y hy
        rcases List.mem_cons.mp hy with hy | hy
        · subst hy; exact lexLe_refl _
        · exact lexLe_trans (ih hb y hy) hc
      · simp only [hc, Bool.false_eq_true, if_false, Option.some.injEq] at h
        subst h
        intro y hy
        rcases List.mem_cons.mp hy with hy | hy
        · subst hy
          rcases lexLe_total (y.sum :: y) (z.sum :: z) with h1 | h1
          · exact h1
          · exact absurd h1 hc
        · exact ih hb y hy

theorem best_eq_of {l : List (List Nat)} {b : List Nat} (hb : b ∈ l)
    (hge : ∀ y ∈ l, atLeast y b = true) : best l = some b := by
  cases h : best l with
  | none => rw [best_eq_none.mp h] at hb; simp at hb
  | some c =>
    have h1 : atLeast b c = true := best_ge h b hb
    have h2 : atLeast c b = true := hge c (best_mem h)
    have := lexLe_antisymm h2 h1
    simp only [List.cons.injEq] at this
    rw [this.2]

/-! ## Splits -/

theorem mem_lengths {p : Piece} {w : List Char} {k : Nat} :
    k ∈ p.lengths w ↔
      k ≤ w.length ∧ (∀ c ∈ w.take k, p.atom.accepts c = true) ∧ p.dup.allows k = true := by
  simp [Piece.lengths, Piece.admits, Nat.lt_succ_iff]

theorem mem_splits_nil {w : List Char} {ks : List Nat} : ks ∈ splits [] w ↔ ks = [] := by
  simp [splits]

theorem mem_splits_cons {p : Piece} {ps : List Piece} {w : List Char} {ks : List Nat} :
    ks ∈ splits (p :: ps) w ↔
      ∃ u w' rest, w = u ++ w' ∧ (∀ c ∈ u, p.atom.accepts c = true) ∧
        p.dup.allows u.length = true ∧ ks = u.length :: rest ∧ rest ∈ splits ps w' := by
  simp only [splits, List.mem_flatMap, List.mem_map, mem_lengths]
  constructor
  · rintro ⟨k, ⟨hk, hall, hd⟩, rest, hrest, rfl⟩
    refine ⟨w.take k, w.drop k, rest, (List.take_append_drop k w).symm, hall, ?_, ?_, hrest⟩
    · rw [List.length_take, Nat.min_eq_left hk]; exact hd
    · rw [List.length_take, Nat.min_eq_left hk]
  · rintro ⟨u, w', rest, rfl, hall, hd, rfl, hrest⟩
    refine ⟨u.length, ⟨by simp, ?_, hd⟩, rest, ?_, rfl⟩
    · simpa using hall
    · simpa using hrest

theorem mem_splits_lit {c : Char} {ps : List Piece} {w : List Char} {ks : List Nat} :
    ks ∈ splits (lit c :: ps) w ↔
      ∃ w' rest, w = c :: w' ∧ ks = 1 :: rest ∧ rest ∈ splits ps w' := by
  rw [mem_splits_cons]
  constructor
  · rintro ⟨u, w', rest, rfl, hall, hd, rfl, hrest⟩
    simp only [lit, Dup.allows, beq_iff_eq] at hd
    match u, hd, hall with
    | [x], _, hall =>
      have : x = c := by simpa [lit, Atom.accepts] using hall x (by simp)
      subst this
      exact ⟨w', rest, rfl, rfl, hrest⟩
  · rintro ⟨w', rest, rfl, rfl, hrest⟩
    exact ⟨[c], w', rest, rfl, by simp [lit, Atom.accepts], by simp [lit, Dup.allows], rfl, hrest⟩

theorem mem_splits_chr {c : Char} {d : Dup} {ps : List Piece} {w : List Char} {ks : List Nat} :
    ks ∈ splits (⟨.chr c, d⟩ :: ps) w ↔
      ∃ k w' rest, w = List.replicate k c ++ w' ∧ d.allows k = true ∧ ks = k :: rest ∧
        rest ∈ splits ps w' := by
  rw [mem_splits_cons]
  constructor
  · rintro ⟨u, w', rest, rfl, hall, hd, rfl, hrest⟩
    refine ⟨u.length, w', rest, ?_, hd, rfl, hrest⟩
    have : u = List.replicate u.length c :=
      List.eq_replicate_iff.mpr ⟨rfl, fun x hx => by simpa [Atom.accepts] using hall x hx⟩
    rw [← this]
  · rintro ⟨k, w', rest, rfl, hd, rfl, hrest⟩
    refine ⟨List.replicate k c, w', rest, rfl, ?_, by simpa using hd, by simp, hrest⟩
    intro x hx
    simp [Atom.accepts, List.eq_of_mem_replicate hx]

theorem mem_splits_dot {d : Dup} {ps : List Piece} {w : List Char} {ks : List Nat} :
    ks ∈ splits (⟨.dot, d⟩ :: ps) w ↔
      ∃ u w' rest, w = u ++ w' ∧ d.allows u.length = true ∧ ks = u.length :: rest ∧
        rest ∈ splits ps w' := by
  rw [mem_splits_cons]
  constructor
  · rintro ⟨u, w', rest, rfl, _, hd, rfl, hrest⟩
    exact ⟨u, w', rest, rfl, hd, rfl, hrest⟩
  · rintro ⟨u, w', rest, rfl, hd, rfl, hrest⟩
    exact ⟨u, w', rest, rfl, fun _ _ => rfl, hd, rfl, hrest⟩

theorem sum_le_of_mem_splits {ps : List Piece} {w : List Char} {ks : List Nat}
    (h : ks ∈ splits ps w) : ks.sum ≤ w.length := by
  induction ps generalizing w ks with
  | nil => rw [mem_splits_nil] at h; subst h; simp
  | cons p ps ih =>
    obtain ⟨u, w', rest, rfl, _, _, rfl, hrest⟩ := mem_splits_cons.mp h
    have := ih hrest
    simp only [List.sum_cons, List.length_append]
    omega

theorem need_le_count {c : Char} {ps : List Piece} {w : List Char} {ks : List Nat}
    (h : ks ∈ splits ps w) : need c ps ≤ w.count c := by
  induction ps generalizing w ks with
  | nil => simp [need]
  | cons p ps ih =>
    obtain ⟨u, w', rest, rfl, hall, hd, rfl, hrest⟩ := mem_splits_cons.mp h
    have h1 := ih hrest
    simp only [need, List.count_append]
    by_cases hp : p.atom = .chr c ∧ (p.dup = .one ∨ p.dup = .plus)
    · rw [if_pos hp]
      have hu : 1 ≤ u.length := by
        rcases hp.2 with h2 | h2
        · have : u.length = 1 := by simpa [h2, Dup.allows] using hd
          omega
        · simpa [h2, Dup.allows] using hd
      have hc : u = List.replicate u.length c :=
        List.eq_replicate_iff.mpr
          ⟨rfl, fun x hx => by simpa [hp.1, Atom.accepts] using hall x hx⟩
      have : u.count c = u.length := by
        rw [hc]; simp
      omega
    · rw [if_neg hp]
      omega

/-! ## The leftmost search -/

theorem search_eq_none {ps : List Piece} {s : List Char} (i : Nat)
    (h : ∀ v, v <:+ s → splits ps v = []) : search ps i s = none := by
  induction s generalizing i with
  | nil => simp [search, h [] (List.suffix_refl _), best]
  | cons c s ih =>
    simp only [search, h (c :: s) (List.suffix_refl _), best]
    exact ih (i + 1) fun v hv => h v (hv.trans (List.suffix_cons c s))

theorem search_base {ps : List Piece} {b : List Char} {ks : List Nat} (i : Nat)
    (hb : best (splits ps b) = some ks) : search ps i b = some (i, ks) := by
  cases b with
  | nil => simp [search, hb]
  | cons c w => simp [search, hb]

theorem search_eq_some {P : List Piece} {a b : List Char} {K : List Nat} (i : Nat)
    (ha : ∀ a2, a2 ≠ [] → a2 <:+ a → splits P (a2 ++ b) = [])
    (hb : best (splits P b) = some K) :
    search P i (a ++ b) = some (i + a.length, K) := by
  induction a generalizing i with
  | nil => simpa using search_base i hb
  | cons c a ih =>
    have h0 : splits P (c :: a ++ b) = [] := by
      simpa using ha (c :: a) (by simp) (List.suffix_refl _)
    simp only [List.cons_append] at h0 ⊢
    simp only [search, h0, best]
    rw [ih (i + 1) fun a2 h2 hs => ha a2 h2 (hs.trans (List.suffix_cons c a))]
    simp only [List.length_cons]
    congr 2
    omega

theorem search_ne_none {P : List Piece} {s v : List Char} (i : Nat)
    (hv : v <:+ s) (h : splits P v ≠ []) : search P i s ≠ none := by
  induction s generalizing i with
  | nil =>
    have : v = [] := List.suffix_nil.mp hv
    subst this
    simp only [search, ne_eq, Option.map_eq_none']
    exact fun hn => h (best_eq_none.mp hn)
  | cons c s ih =>
    simp only [search]
    cases hb : best (splits P (c :: s)) with
    | some ks => simp
    | none =>
      have h0 := best_eq_none.mp hb
      rcases List.suffix_cons_iff.mp hv with rfl | hv'
      · exact absurd h0 h
      · exact ih (i + 1) hv'

theorem regexec_eq_none_of_count {r : regex_t} {s : List Char} (c : Char)
    (h : s.count c < need c r.pieces) : regexec r s = none := by
  have : search r.pieces 0 s = none := by
    apply search_eq_none
    intro v hv
    rw [List.eq_nil_iff_forall_not_mem]
    intro ks hks
    have h1 := need_le_count (c := c) hks
    have h2 : v.count c ≤ s.count c := hv.sublist.count_le c
    omega
  simp [regexec, this]

theorem size_guard : (((MAX_CAPTURE_SIZE + SIZE_MOD - 1) % SIZE_MOD : Nat) : Int) = 1023 := by
  decide

theorem md_list_append_eq (l : List MdNode) (t : MdNodeType) (c : List Char) :
    md_list_append l t c = l ++ [⟨t, strncpy c MAX_LINE_SIZE⟩] := by
  induction l with
  | nil => rfl
  | cons n l ih => simp [md_list_append, ih]

theorem strncpy_of_le {c : List Char} {n : Nat} (h : c.length ≤ n) : strncpy c n = c := by
  simp [strncpy, List.take_of_length_le h]

/-- Two ways of writing a text as a run of `c` followed by a text that does not start
with `c` agree. -/
theorem run_unique {c : Char} {a b : Nat} {x y : List Char}
    (h : List.replicate a c ++ x = List.replicate b c ++ y)
    (hx : x.head? ≠ some c) (hy : y.head? ≠ some c) : a = b ∧ x = y := by
  induction a generalizing b with
  | zero =>
    cases b with
    | zero => exact ⟨rfl, by simpa using h⟩
    | succ b =>
      simp only [List.replicate_zero, List.nil_append, List.replicate_succ,
        List.cons_append] at h
      rw [h] at hx
      simp at hx
  | succ a ih =>
    cases b with
    | zero =>
      simp only [List.replicate_zero, List.nil_append, List.replicate_succ,
        List.cons_append] at h
      rw [← h] at hy
      simp at hy
    | succ b =>
      simp only [List.replicate_succ, List.cons_append, List.cons.injEq, true_and] at h
      obtain ⟨h1, h2⟩ := ih h
      exact ⟨by omega, h2⟩

theorem mem_splits_lits {c : Char} {j : Nat} {ps : List Piece} {w : List Char}
    {ks : List Nat} :
    ks ∈ splits (List.replicate j (lit c) ++ ps) w ↔
      ∃ w' rest, w = List.replicate j c ++ w' ∧ ks = List.replicate j 1 ++ rest ∧
        rest ∈ splits ps w' := by
  induction j generalizing w ks with
  | zero => simp
  | succ j ih =>
    simp only [List.replicate_succ, List.cons_append, mem_splits_lit, ih]
    constructor
    · rintro ⟨w1, r1, rfl, rfl, w2, r2, rfl, rfl, h⟩
      exact ⟨w2, r2, rfl, rfl, h⟩
    · rintro ⟨w2, r2, rfl, rfl, h⟩
      exact ⟨_, _, rfl, rfl, w2, r2, rfl, rfl, h⟩

/-- The tail ` +(.*)` or ` *(.*)` of the heading and block-quote patterns. -/
theorem mem_splits_tail {d : Dup} {w : List Char} {ks : List Nat} :
    ks ∈ splits [⟨.chr ' ', d⟩, ⟨.dot, .star⟩] w ↔
      ∃ k u w', w = List.replicate k ' ' ++ (u ++ w') ∧ d.allows k = true ∧
        ks = [k, u.length] := by
  simp only [mem_splits_chr, mem_splits_dot, mem_splits_nil]
  constructor
  · rintro ⟨k, w1, rest, rfl, hd, rfl, u, w', r2, rfl, _, rfl, rfl⟩
    exact ⟨k, u, w', rfl, hd, rfl⟩
  · rintro ⟨k, u, w', rfl, hd, rfl⟩
    exact ⟨k, _, _, rfl, hd, rfl, u, w', [], rfl, rfl, rfl, rfl⟩

/-- The preferred split of the tail on a run of spaces followed by a text that does
not start with a space: the spaces, then the whole text. -/
theorem tail_dominated {d : Dup} {n : Nat} {t : List Char} (ht : t.head? ≠ some ' ')
    {ks : List Nat} (h : ks ∈ splits [⟨.chr ' ', d⟩, ⟨.dot, .star⟩] (List.replicate n ' ' ++ t)) :
    atLeast ks [n, t.length] = true := by
  obtain ⟨k, u, w', hw, _, rfl⟩ := mem_splits_tail.mp h
  have hk : k ≤ n := by
    by_contra hlt
    have hlt : n < k := Nat.lt_of_not_le hlt
    obtain ⟨m, rfl⟩ : ∃ m, k = n + (m + 1) := ⟨k - n - 1, by omega⟩
    rw [List.replicate_add, List.append_assoc] at hw
    have := List.append_cancel_left hw
    rw [this] at ht
    simp [List.replicate_succ] at ht
  have hlen := congrArg List.length hw
  simp only [List.length_append, List.length_replicate] at hlen
  rw [atLeast_iff]
  simp only [List.sum_cons, List.sum_nil, Nat.add_zero]
  by_cases hs : k + u.length < n + t.length
  · left; exact hs
  · right
    refine ⟨by omega, ?_⟩
    simp only [lexLe, Bool.or_eq_true, Bool.and_eq_true, decide_eq_true_eq, beq_iff_eq]
    by_cases hk2 : k < n
    · left; exact hk2
    · right
      refine ⟨by omega, ?_⟩
      by_cases h3 : u.length < t.length
      · left; exact h3
      · right; exact ⟨by omega, trivial⟩

theorem tail_mem {d : Dup} {n : Nat} {t : List Char} (hd : d.allows n = true) :
    [n, t.length] ∈ splits [⟨.chr ' ', d⟩, ⟨.dot, .star⟩] (List.replicate n ' ' ++ t) :=
  mem_splits_tail.mpr ⟨n, t, [], by simp, hd, rfl⟩

theorem atLeast_append_left (p x y : List Nat) (h : atLeast x y = true) :
    atLeast (p ++ x) (p ++ y) = true := by
  rw [atLeast_iff] at h ⊢
  simp only [List.sum_append, lexLe_append_left]
  rcases h with h | ⟨h, h'⟩
  · left; omega
  · right; exact ⟨by omega, h'⟩

/-- What `match_single_capture` returns once the search result and the place of the
group in the line are known. -/
theorem msc_of_search {r : regex_t} {g : List Piece} {s x cap z : List Char} {i : Nat}
    {ks : List Nat} (hg : r.grp = some g) (hs : search r.pieces 0 s = some (i, ks))
    (hsplit : s = x ++ (cap ++ z))
    (hx : x.length = i + (ks.take r.pre.length).sum)
    (hcap : cap.length = ((ks.drop r.pre.length).take g.length).sum) :
    match_single_capture r s MAX_CAPTURE_SIZE =
      if 0 < cap.length ∧ cap.length < 1023 then some cap else none := by
  simp only [match_single_capture, regexec, hs, hg, size_guard]
  rw [← hx, ← hcap]
  have h1 : ¬ ((x.length : Int) = -1) := by omega
  have h2 : ¬ (((x.length + cap.length : Nat) : Int) = -1) := by omega
  simp only [ne_eq, h1, h2, not_false_eq_true, and_self, if_true]
  have h3 : ((x.length + cap.length : Nat) : Int) - (x.length : Int) = (cap.length : Int) := by
    omega
  rw [h3]
  by_cases hc : 0 < cap.length ∧ cap.length < 1023
  · have hc' : (cap.length : Int) > 0 ∧ (cap.length : Int) < 1023 := by omega
    rw [if_pos hc', if_pos hc]
    simp [strncpy, hsplit]
  · have hc' : ¬ ((cap.length : Int) > 0 ∧ (cap.length : Int) < 1023) := by omega
    rw [if_neg hc', if_neg hc]

theorem msc_eq_none_of_regexec {r : regex_t} {s : List Char} (h : regexec r s = none) (n : Nat) :
    match_single_capture r s n = none := by
  simp [match_single_capture, h]

theorem headingRe_pieces (j : Nat) :
    (headingRe j).pieces = List.replicate j (lit '#') ++ [⟨.chr ' ', .plus⟩, ⟨.dot, .star⟩] := by
  simp [headingRe, regex_t.pieces]

theorem suffix_replicate {c : Char} {i : Nat} {a : List Char}
    (h : a <:+ List.replicate i c) : a = List.replicate a.length c :=
  List.eq_replicate_iff.mpr ⟨rfl, fun _ hx => List.eq_of_mem_replicate (h.subset hx)⟩

theorem head_replicate_append_ne {c d : Char} (hcd : c ≠ d) (k : Nat) (hk : 1 ≤ k)
    (w : List Char) : (List.replicate k c ++ w).head? ≠ some d := by
  obtain ⟨m, rfl⟩ : ∃ m, k = m + 1 := ⟨k - 1, by omega⟩
  simp [List.replicate_succ, hcd]

theorem head_ne_of_not_mem {c : Char} {r : List Char} (h : c ∉ r) : r.head? ≠ some c := by
  cases r with
  | nil => simp
  | cons x r =>
    simp only [List.head?_cons, ne_eq, Option.some.injEq]
    rintro rfl
    exact h (List.mem_cons_self _ _)

/-- A heading pattern matches at the last `j` hashes of a run that is followed by
spaces; the group is the text after the spaces. -/
theorem heading_search (j i n : Nat) {t : List Char} (ht : t.head? ≠ some ' ') :
    search (headingRe j).pieces 0
        (List.replicate i '#' ++ (List.replicate j '#' ++ (List.replicate (n + 1) ' ' ++ t))) =
      some (i, List.replicate j 1 ++ [n + 1, t.length]) := by
  have key := search_eq_some (P := (headingRe j).pieces) (a := List.replicate i '#')
    (b := List.replicate j '#' ++ (List.replicate (n + 1) ' ' ++ t))
    (K := List.replicate j 1 ++ [n + 1, t.length]) 0 ?_ ?_
  · simpa using key
  · intro a2 hne hsuf
    rw [List.eq_nil_iff_forall_not_mem]
    intro ks hks
    rw [headingRe_pieces, mem_splits_lits] at hks
    obtain ⟨w', rest, hw, -, hrest⟩ := hks
    obtain ⟨k, u, w'', rfl, hd, -⟩ := mem_splits_tail.mp hrest
    have hk : 1 ≤ k := by simpa [Dup.allows] using hd
    rw [suffix_replicate hsuf, ← List.append_assoc, ← List.replicate_add] at hw
    have := (run_unique hw (head_replicate_append_ne (by decide) _ (by omega) _)
      (head_replicate_append_ne (by decide) _ hk _)).1
    have h0 : a2.length = 0 := by omega
    exact hne (List.length_eq_zero.mp h0)
  · rw [headingRe_pieces]
    apply best_eq_of
    · exact mem_splits_lits.mpr ⟨_, _, rfl, rfl, tail_mem (by simp [Dup.allows])⟩
    · intro y hy
      obtain ⟨w', rest, hw, rfl, hrest⟩ := mem_splits_lits.mp hy
      have := List.append_cancel_left hw
      subst this
      exact atLeast_append_left _ _ _ (tail_dominated ht hrest)

theorem take_drop_lens (j a b : Nat) :
    ((List.replicate j 1 ++ [a, b]).take (j + 1)).sum = j + a ∧
      (((List.replicate j 1 ++ [a, b]).drop (j + 1)).take 1).sum = b := by
  induction j with
  | zero => simp
  | succ j ih =>
    simp only [List.replicate_succ, List.cons_append, List.take_succ_cons, List.sum_cons,
      List.drop_succ_cons]
    omega

/-- The result of `match_single_capture` for a heading pattern on a run of at least
`j` hashes followed by spaces and a text. -/
theorem msc_heading_found (j i n : Nat) {t : List Char} (ht : t.head? ≠ some ' ') :
    match_single_capture (headingRe j)
        (List.replicate i '#' ++ (List.replicate j '#' ++ (List.replicate (n + 1) ' ' ++ t)))
        MAX_CAPTURE_SIZE =
      if 0 < t.length ∧ t.length < 1023 then some t else none := by
  have h := take_drop_lens j (n + 1) t.length
  apply msc_of_search (g := [⟨.dot, .star⟩])
    (x := List.replicate i '#' ++ (List.replicate j '#' ++ List.replicate (n + 1) ' '))
    (z := []) rfl (heading_search j i n ht)
  · simp
  · simp only [headingRe, List.length_append, List.length_replicate, List.length_singleton]
    have := h.1
    omega
  · simp only [headingRe, List.length_append, List.length_replicate, List.length_singleton]
    rw [h.2]

/-- A heading pattern with `j ≥ 1` hashes does not match a line whose hashes are its
first `k` characters unless `j ≤ k` and a space follows the run. -/
theorem heading_search_none (j k : Nat) (hj : 1 ≤ j) {r : List Char} (hr : '#' ∉ r)
    (h : k < j ∨ r.head? ≠ some ' ') (i : Nat) :
    search (headingRe j).pieces i (List.replicate k '#' ++ r) = none := by
  induction k generalizing i with
  | zero =>
    apply search_eq_none
    intro v hv
    rw [List.eq_nil_iff_forall_not_mem]
    intro ks hks
    have h1 := need_le_count (c := '#') hks
    have h2 : v.count '#' = 0 := List.count_eq_zero.mpr fun hm => hr (by simpa using hv.subset hm)
    obtain ⟨m, rfl⟩ : ∃ m, j = m + 1 := ⟨j - 1, by omega⟩
    rw [headingRe_pieces] at h1
    simp [need, List.replicate_succ, lit] at h1
    omega
  | succ k ih =>
    have h0 : splits (headingRe j).pieces ('#' :: (List.replicate k '#' ++ r)) = [] := by
      rw [List.eq_nil_iff_forall_not_mem]
      intro ks hks
      rw [headingRe_pieces, mem_splits_lits] at hks
      obtain ⟨w', rest, hw, -, hrest⟩ := hks
      obtain ⟨m, u, w'', rfl, hd, -⟩ := mem_splits_tail.mp hrest
      have hm : 1 ≤ m := by simpa [Dup.allows] using hd
      have hw' : List.replicate (k + 1) '#' ++ r =
          List.replicate j '#' ++ (List.replicate m ' ' ++ (u ++ w'')) := by
        simpa [List.replicate_succ] using hw
      obtain ⟨h1, h2⟩ := run_unique hw' (head_ne_of_not_mem hr)
        (head_replicate_append_ne (by decide) _ hm _)
      rcases h with h | h
      · omega
      · apply h
        obtain ⟨m', rfl⟩ : ∃ m', m = m' + 1 := ⟨m - 1, by omega⟩
        rw [h2]
        simp [List.replicate_succ]
    rw [List.replicate_succ, List.cons_append, search, h0]
    exact ih (by rcases h with h | h; exact Or.inl (by omega); exact Or.inr h) (i + 1)

theorem msc_heading_none (j k : Nat) (hj : 1 ≤ j) {r : List Char} (hr : '#' ∉ r)
    (h : k < j ∨ r.head? ≠ some ' ') :
    match_single_capture (headingRe j) (List.replicate k '#' ++ r) MAX_CAPTURE_SIZE = none := by
  apply msc_eq_none_of_regexec
  simp [regexec, heading_search_none j k hj hr h 0]

theorem heading_1_eq : md_regexes_create.heading_1 = headingRe 1 := rfl
theorem heading_2_eq : md_regexes_create.heading_2 = headingRe 2 := rfl
theorem heading_3_eq : md_regexes_create.heading_3 = headingRe 3 := rfl

theorem block_quote_pieces : md_regexes_create.block_quote.pieces =
    [lit '>', ⟨.chr ' ', .star⟩, ⟨.dot, .star⟩] := rfl

theorem text_bold_pieces : md_regexes_create.text_bold.pieces =
    [lit '*', lit '*', ⟨.dot, .starOpt⟩, lit '*', lit '*'] := rfl

theorem text_italics_pieces : md_regexes_create.text_italics.pieces =
    [lit '*', ⟨.dot, .starOpt⟩, lit '*'] := rfl

theorem line_pieces : md_regexes_create.line.pieces =
    [⟨.chr ' ', .star⟩, lit '-', ⟨.chr ' ', .star⟩, lit '-', ⟨.chr ' ', .star⟩, lit '-',
      ⟨.dot, .star⟩] := rfl

/-- No suffix of `a ++ b` that starts inside `a` can be matched by a pattern whose
first piece is the ordinary character `c` when `c` does not occur in `a`. -/
theorem no_split_inside {c : Char} {ps : List Piece} {a b : List Char} (hc : c ∉ a) :
    ∀ a2, a2 ≠ [] → a2 <:+ a → splits (lit c :: ps) (a2 ++ b) = [] := by
  intro a2 hne hsuf
  rw [List.eq_nil_iff_forall_not_mem]
  intro ks hks
  obtain ⟨w', rest, hw, -, -⟩ := mem_splits_lit.mp hks
  cases a2 with
  | nil => exact hne rfl
  | cons x a2 =>
    simp only [List.cons_append, List.cons.injEq] at hw
    exact hc (hsuf.subset (by simp [hw.1]))

/-- The block-quote pattern matches at the first `>`; the group is the text after the
spaces that follow it. -/
theorem block_quote_search {a t : List Char} (n : Nat) (ha : '>' ∉ a)
    (ht : t.head? ≠ some ' ') :
    search md_regexes_create.block_quote.pieces 0 (a ++ ('>' :: (List.replicate n ' ' ++ t))) =
      some (a.length, [1, n, t.length]) := by
  have key := search_eq_some (P := md_regexes_create.block_quote.pieces) (a := a)
    (b := '>' :: (List.replicate n ' ' ++ t)) (K := [1, n, t.length]) 0
    (by rw [block_quote_pieces]; exact no_split_inside ha) ?_
  · simpa using key
  · rw [block_quote_pieces]
    apply best_eq_of
    · exact mem_splits_lit.mpr ⟨_, _, rfl, rfl, tail_mem (by simp [Dup.allows])⟩
    · intro y hy
      obtain ⟨w', rest, hw, rfl, hrest⟩ := mem_splits_lit.mp hy
      simp only [List.cons.injEq, true_and] at hw
      subst hw
      exact atLeast_append_left [1] _ _ (tail_dominated ht hrest)

theorem msc_block_quote {a t : List Char} (n : Nat) (ha : '>' ∉ a)
    (ht : t.head? ≠ some ' ') :
    match_single_capture md_regexes_create.block_quote
        (a ++ ('>' :: (List.replicate n ' ' ++ t))) MAX_CAPTURE_SIZE =
      if 0 < t.length ∧ t.length < 1023 then some t else none := by
  apply msc_of_search (g := [⟨.dot, .star⟩]) (x := a ++ ('>' :: List.replicate n ' '))
    (z := []) rfl (block_quote_search n ha ht)
  · simp
  · simp [md_regexes_create]
    omega
  · simp [md_regexes_create]

/-- The first `**` after `t` is where `t` ends. -/
theorem double_delim_unique {c : Char} {t z u y : List Char}
    (h : t ++ c :: c :: z = u ++ c :: c :: y) (ht : c ∉ t) (hz : c ∉ z) : u = t := by
  rcases List.append_eq_append_iff.mp h with ⟨a', hu, ha'⟩ | ⟨c', ht', hc'⟩
  · cases a' with
    | nil => simpa using hu
    | cons d a' =>
      simp only [List.cons_append, List.cons.injEq] at ha'
      cases a' with
      | nil =>
        simp only [List.nil_append, List.cons.injEq] at ha'
        exact absurd (by rw [ha'.2.2]; simp) hz
      | cons e a' =>
        simp only [List.cons_append, List.cons.injEq] at ha'
        exact absurd (by rw [ha'.2.2]; simp) hz
  · cases c' with
    | nil => simpa using ht'.symm
    | cons d c' =>
      simp only [List.cons_append, List.cons.injEq] at hc'
      exact absurd (by rw [ht', ← hc'.1]; simp) ht

/-- The first `*` after `t` is where `t` ends. -/
theorem single_delim_unique {c : Char} {t z u y : List Char}
    (h : t ++ c :: z = u ++ c :: y) (ht : c ∉ t) (hz : c ∉ z) : u = t := by
  rcases List.append_eq_append_iff.mp h with ⟨a', hu, ha'⟩ | ⟨c', ht', hc'⟩
  · cases a' with
    | nil => simpa using hu
    | cons d a' =>
      simp only [List.cons_append, List.cons.injEq] at ha'
      exact absurd (by rw [ha'.2]; simp) hz
  · cases c' with
    | nil => simpa using ht'.symm
    | cons d c' =>
      simp only [List.cons_append, List.cons.injEq] at hc'
      exact absurd (by rw [ht', ← hc'.1]; simp) ht

/-- The bold pattern on a line with exactly one `**…**` span and no other asterisk. -/
theorem text_bold_search {a t z : List Char} (ha : '*' ∉ a) (ht : '*' ∉ t) (hz : '*' ∉ z) :
    search md_regexes_create.text_bold.pieces 0 (a ++ ('*' :: '*' :: (t ++ '*' :: '*' :: z))) =
      some (a.length, [1, 1, t.length, 1, 1]) := by
  have key := search_eq_some (P := md_regexes_create.text_bold.pieces) (a := a)
    (b := '*' :: '*' :: (t ++ '*' :: '*' :: z)) (K := [1, 1, t.length, 1, 1]) 0
    (by rw [text_bold_pieces]; exact no_split_inside ha) ?_
  · simpa using key
  · rw [text_bold_pieces]
    apply best_eq_of
    · refine mem_splits_lit.mpr ⟨_, _, rfl, rfl, mem_splits_lit.mpr ⟨_, _, rfl, rfl, ?_⟩⟩
      refine mem_splits_dot.mpr ⟨t, _, _, rfl, rfl, rfl, ?_⟩
      exact mem_splits_lit.mpr ⟨_, _, rfl, rfl, mem_splits_lit.mpr ⟨_, _, rfl, rfl, by simp [splits]⟩⟩
    · intro y hy
      obtain ⟨w1, r1, hw1, rfl, h1⟩ := mem_splits_lit.mp hy
      obtain ⟨w2, r2, hw2, rfl, h2⟩ := mem_splits_lit.mp h1
      obtain ⟨u, w3, r3, hw3, -, rfl, h3⟩ := mem_splits_dot.mp h2
      obtain ⟨w4, r4, hw4, rfl, h4⟩ := mem_splits_lit.mp h3
      obtain ⟨w5, r5, hw5, rfl, h5⟩ := mem_splits_lit.mp h4
      rw [mem_splits_nil] at h5
      subst h5
      simp only [List.cons.injEq, true_and] at hw1
      subst hw1
      simp only [List.cons.injEq, true_and] at hw2
      subst hw2 hw4 hw5
      rw [double_delim_unique hw3 ht hz]
      exact lexLe_refl _

theorem msc_text_bold {a t z : List Char} (ha : '*' ∉ a) (ht : '*' ∉ t) (hz : '*' ∉ z) :
    match_single_capture md_regexes_create.text_bold
        (a ++ ('*' :: '*' :: (t ++ '*' :: '*' :: z))) MAX_CAPTURE_SIZE =
      if 0 < t.length ∧ t.length < 1023 then some t else none := by
  apply msc_of_search (g := [⟨.dot, .starOpt⟩]) (x := a ++ ['*', '*'])
    (z := '*' :: '*' :: z) rfl (text_bold_search ha ht hz)
  · simp
  · simp [md_regexes_create]
  · simp [md_regexes_create]

/-- The italic pattern on a line with exactly one `*…*` span and no other asterisk. -/
theorem text_italics_search {a t z : List Char} (ha : '*' ∉ a) (ht : '*' ∉ t)
    (hz : '*' ∉ z) :
    search md_regexes_create.text_italics.pieces 0 (a ++ ('*' :: (t ++ '*' :: z))) =
      some (a.length, [1, t.length, 1]) := by
  have key := search_eq_some (P := md_regexes_create.text_italics.pieces) (a := a)
    (b := '*' :: (t ++ '*' :: z)) (K := [1, t.length, 1]) 0
    (by rw [text_italics_pieces]; exact no_split_inside ha) ?_
  · simpa using key
  · rw [text_italics_pieces]
    apply best_eq_of
    · refine mem_splits_lit.mpr ⟨_, _, rfl, rfl, ?_⟩
      refine mem_splits_dot.mpr ⟨t, _, _, rfl, rfl, rfl, ?_⟩
      exact mem_splits_lit.mpr ⟨_, _, rfl, rfl, by simp [splits]⟩
    · intro y hy
      obtain ⟨w1, r1, hw1, rfl, h1⟩ := mem_splits_lit.mp hy
      obtain ⟨u, w3, r3, hw3, -, rfl, h3⟩ := mem_splits_dot.mp h1
      obtain ⟨w4, r4, hw4, rfl, h4⟩ := mem_splits_lit.mp h3
      rw [mem_splits_nil] at h4
      subst h4
      simp only [List.cons.injEq, true_and] at hw1
      subst hw1 hw4
      rw [single_delim_unique hw3 ht hz]
      exact lexLe_refl _

theorem msc_text_italics {a t z : List Char} (ha : '*' ∉ a) (ht : '*' ∉ t) (hz : '*' ∉ z) :
    match_single_capture md_regexes_create.text_italics
        (a ++ ('*' :: (t ++ '*' :: z))) MAX_CAPTURE_SIZE =
      if 0 < t.length ∧ t.length < 1023 then some t else none := by
  apply msc_of_search (g := [⟨.dot, .starOpt⟩]) (x := a ++ ['*'])
    (z := '*' :: z) rfl (text_italics_search ha ht hz)
  · simp
  · simp [md_regexes_create]
  · simp [md_regexes_create]

/-- The thematic-break pattern matches every line that starts with three hyphens
separated by optional spaces. -/
theorem line_matches (a b c : Nat) (rest : List Char) :
    match_no_capture md_regexes_create.line
        (List.replicate a ' ' ++ ('-' :: (List.replicate b ' ' ++
          ('-' :: (List.replicate c ' ' ++ ('-' :: rest)))))) = true := by
  have hmem : [a, 1, b, 1, c, 1, rest.length] ∈ splits md_regexes_create.line.pieces
      (List.replicate a ' ' ++ ('-' :: (List.replicate b ' ' ++
          ('-' :: (List.replicate c ' ' ++ ('-' :: rest)))))) := by
    rw [line_pieces]
    refine mem_splits_chr.mpr ⟨a, _, _, rfl, rfl, rfl, mem_splits_lit.mpr ⟨_, _, rfl, rfl, ?_⟩⟩
    refine mem_splits_chr.mpr ⟨b, _, _, rfl, rfl, rfl, mem_splits_lit.mpr ⟨_, _, rfl, rfl, ?_⟩⟩
    refine mem_splits_chr.mpr ⟨c, _, _, rfl, rfl, rfl, mem_splits_lit.mpr ⟨_, _, rfl, rfl, ?_⟩⟩
    exact mem_splits_dot.mpr ⟨rest, [], [], by simp, rfl, rfl, by simp [splits]⟩
  have hs := search_ne_none (P := md_regexes_create.line.pieces) 0 (List.suffix_refl _)
    (List.ne_nil_of_mem hmem)
  simp only [match_no_capture, regexec]
  cases h : search md_regexes_create.line.pieces 0 (List.replicate a ' ' ++
      ('-' :: (List.replicate b ' ' ++ ('-' :: (List.replicate c ' ' ++ ('-' :: rest)))))) with
  | none => exact absurd h hs
  | some v => rfl

/-! ## Lines without the character a pattern needs -/

theorem msc_heading_none_of_not_mem (j : Nat) (hj : 1 ≤ j) {s : List Char} (h : '#' ∉ s) :
    match_single_capture (headingRe j) s MAX_CAPTURE_SIZE = none := by
  simpa using msc_heading_none j 0 hj h (Or.inl (by omega))

theorem msc_block_quote_none {s : List Char} (h : '>' ∉ s) (n : Nat) :
    match_single_capture md_regexes_create.block_quote s n = none :=
  msc_eq_none_of_regexec
    (regexec_eq_none_of_count '>' (by rw [List.count_eq_zero.mpr h]; decide)) n

theorem line_none {s : List Char} (h : '-' ∉ s) :
    match_no_capture md_regexes_create.line s = false := by
  simp [match_no_capture,
    regexec_eq_none_of_count (r := md_regexes_create.line) '-'
      (by rw [List.count_eq_zero.mpr h]; decide)]

theorem msc_text_bold_none {s : List Char} (h : s.count '*' < 4) (n : Nat) :
    match_single_capture md_regexes_create.text_bold s n = none :=
  msc_eq_none_of_regexec
    (regexec_eq_none_of_count '*' (Nat.lt_of_lt_of_le h (by decide))) n

theorem msc_text_italics_none {s : List Char} (h : s.count '*' < 2) (n : Nat) :
    match_single_capture md_regexes_create.text_italics s n = none :=
  msc_eq_none_of_regexec
    (regexec_eq_none_of_count '*' (Nat.lt_of_lt_of_le h (by decide))) n

/-! ## The claims -/

theorem lastType_append (l : List MdNode) (n : MdNode) : lastType (l ++ [n]) = some n.type := by
  simp [lastType]

theorem msc_none_of_not_captures {re : regex_t} {s : List Char}
    (h : capturesNonEmpty re s = false) (n : Nat) : match_single_capture re s n = none := by
  unfold capturesNonEmpty at h
  unfold match_single_capture
  cases hr : regexec re s with
  | none => rfl
  | some m =>
    obtain ⟨m0, m1⟩ := m
    rw [hr] at h
    simp only [decide_eq_false_iff_not] at h
    have : ¬ (m1.rm_eo - m1.rm_so > 0) := by omega
    simp [this]

/-- The kind `match_md` gives a line, read off the `if`/`else if` chain. -/
theorem lastType_match_md (r : MdRegexes) (s : List Char) (doc : List MdNode) :
    lastType (match_md r s doc) = some (
      if (match_single_capture r.heading_3 s MAX_CAPTURE_SIZE).isSome then .MD_TYPE_HEADING_3
      else if (match_single_capture r.heading_2 s MAX_CAPTURE_SIZE).isSome then .MD_TYPE_HEADING_2
      else if (match_single_capture r.heading_1 s MAX_CAPTURE_SIZE).isSome then .MD_TYPE_HEADING_1
      else if (match_single_capture r.block_quote s MAX_CAPTURE_SIZE).isSome then
        .MD_TYPE_BLOCK_QUOTE
      else if match_no_capture r.line s then .MD_TYPE_LINE
      else if (match_single_capture r.text_bold s MAX_CAPTURE_SIZE).isSome then .MD_TYPE_TEXT_BOLD
      else if (match_single_capture r.text_italics s MAX_CAPTURE_SIZE).isSome then
        .MD_TYPE_TEXT_ITALICS
      else .MD_TYPE_TEXT) := by
  unfold match_md
  cases match_single_capture r.heading_3 s MAX_CAPTURE_SIZE <;>
  cases match_single_capture r.heading_2 s MAX_CAPTURE_SIZE <;>
  cases match_single_capture r.heading_1 s MAX_CAPTURE_SIZE <;>
  cases match_single_capture r.block_quote s MAX_CAPTURE_SIZE <;>
  cases match_no_capture r.line s <;>
  cases match_single_capture r.text_bold s MAX_CAPTURE_SIZE <;>
  cases match_single_capture r.text_italics s MAX_CAPTURE_SIZE <;>
  simp [md_list_append_eq, lastType_append]

/-- A line that contains none of `#`, `>`, `-`, `*` goes to the fallback. -/
theorem match_md_plain {s : List Char} (h1 : '#' ∉ s) (h2 : '>' ∉ s) (h3 : '-' ∉ s)
    (h4 : '*' ∉ s) (doc : List MdNode) :
    match_md md_regexes_create s doc = doc ++ [⟨.MD_TYPE_TEXT, strncpy s MAX_LINE_SIZE⟩] := by
  have hc : s.count '*' = 0 := List.count_eq_zero.mpr h4
  have e3 := msc_heading_none_of_not_mem 3 (by decide) h1
  have e2 := msc_heading_none_of_not_mem 2 (by decide) h1
  have e1 := msc_heading_none_of_not_mem 1 (by decide) h1
  rw [← heading_3_eq] at e3
  rw [← heading_2_eq] at e2
  rw [← heading_1_eq] at e1
  simp only [match_md, e3, e2, e1, msc_block_quote_none h2, line_none h3,
    msc_text_bold_none (by omega : s.count '*' < 4), msc_text_italics_none (by omega : s.count '*' < 2),
    md_list_append_eq]
  simp

/-- C1 (amended). For every node whose full template expansion is at most 1023 bytes,
`md_node_to_html` with the 1024-byte buffer writes exactly the template of the node's
kind with the payload inserted verbatim, the fragment ends with `>` followed by a
single newline, and its length is the length of the expansion. -/
theorem md_node_to_html_template (node : MdNode)
    (hfit : expansionLength node ≤ MAX_LINE_SIZE - 1) :
    md_node_to_html node MAX_LINE_SIZE =
        (match node.type with
         | .MD_TYPE_HEADING_1 => "<h1>".toList ++ node.content ++ "</h1>\n".toList
         | .MD_TYPE_HEADING_2 => "<h2>".toList ++ node.content ++ "</h2>\n".toList
         | .MD_TYPE_HEADING_3 => "<h3>".toList ++ node.content ++ "</h3>\n".toList
         | .MD_TYPE_TEXT_BOLD => "<b>".toList ++ node.content ++ "</b><br />\n".toList
         | .MD_TYPE_TEXT_ITALICS => "<i>".toList ++ node.content ++ "</i><br />\n".toList
         | .MD_TYPE_BLOCK_QUOTE =>
           "<blockquote>".toList ++ node.content ++ "</blockquote>\n".toList
         | .MD_TYPE_TEXT => node.content ++ "<br />\n".toList
         | .MD_TYPE_LINE => "<hr />\n".toList) ∧
      (∃ body, md_node_to_html node MAX_LINE_SIZE = body ++ ['>', '\n']) ∧
      (md_node_to_html node MAX_LINE_SIZE).length = expansionLength node := by
  obtain ⟨ty, c⟩ := node
  have key : ∀ l : List Char, l.length ≤ 1023 → snprintf MAX_LINE_SIZE l = l := fun l h =>
    List.take_of_length_le (by simpa [MAX_LINE_SIZE] using h)
  cases ty <;> simp only [expansionLength, MAX_LINE_SIZE] at hfit <;>
    simp only [md_node_to_html, expansionLength]
  · rw [key _ (by simp; omega)]
    exact ⟨rfl, ⟨"<h1>".toList ++ c ++ "</h1".toList, by simp⟩, by simp⟩
  · rw [key _ (by simp; omega)]
    exact ⟨rfl, ⟨"<h2>".toList ++ c ++ "</h2".toList, by simp⟩, by simp⟩
  · rw [key _ (by simp; omega)]
    exact ⟨rfl, ⟨"<h3>".toList ++ c ++ "</h3".toList, by simp⟩, by simp⟩
  · rw [key _ (by simp; omega)]
    exact ⟨rfl, ⟨"<b>".toList ++ c ++ "</b><br /".toList, by simp⟩, by simp⟩
  · rw [key _ (by simp; omega)]
    exact ⟨rfl, ⟨"<i>".toList ++ c ++ "</i><br /".toList, by simp⟩, by simp⟩
  · rw [key _ (by simp; omega)]
    exact ⟨rfl, ⟨"<blockquote>".toList ++ c ++ "</blockquote".toList, by simp⟩, by simp⟩
  · rw [key _ (by simp; omega)]
    exact ⟨rfl, ⟨c ++ "<br /".toList, by simp⟩, by simp⟩
  · exact ⟨by decide, ⟨"<hr /".toList, by decide⟩, by decide⟩

/-- Witness for C1: the node `Heading1("Title")` renders as `<h1>Title</h1>` and a
newline. -/
theorem md_node_to_html_template_witness :
    expansionLength ⟨.MD_TYPE_HEADING_1, "Title".toList⟩ ≤ MAX_LINE_SIZE - 1 ∧
      md_node_to_html ⟨.MD_TYPE_HEADING_1, "Title".toList⟩ MAX_LINE_SIZE =
        "<h1>Title</h1>\n".toList :=
  ⟨by decide, (md_node_to_html_template ⟨.MD_TYPE_HEADING_1, "Title".toList⟩ (by decide)).1⟩

/-- C1 as stated fails: the 1017-byte line of `a` is classified as plain text with the
line as payload, and its fragment is the first 1023 bytes of the template, which ends
in `<br />` without the newline. -/
theorem md_node_to_html_truncates :
    match_md md_regexes_create (List.replicate 1017 'a') [] =
        [⟨.MD_TYPE_TEXT, List.replicate 1017 'a'⟩] ∧
      md_node_to_html ⟨.MD_TYPE_TEXT, List.replicate 1017 'a'⟩ MAX_LINE_SIZE =
        List.replicate 1017 'a' ++ "<br />".toList ∧
      md_node_to_html ⟨.MD_TYPE_TEXT, List.replicate 1017 'a'⟩ MAX_LINE_SIZE ≠
        List.replicate 1017 'a' ++ "<br />\n".toList := by
  have hmem : ∀ c : Char, c ≠ 'a' → c ∉ List.replicate 1017 'a' := fun c hc hm =>
    hc (List.eq_of_mem_replicate hm)
  have hout : md_node_to_html ⟨.MD_TYPE_TEXT, List.replicate 1017 'a'⟩ MAX_LINE_SIZE =
      List.replicate 1017 'a' ++ "<br />".toList := by
    simp only [md_node_to_html, snprintf, MAX_LINE_SIZE]
    rw [List.take_append_eq_append_take,
      List.take_of_length_le (by rw [List.length_replicate]; decide)]
    simp only [List.length_replicate]
    rfl
  refine ⟨?_, hout, ?_⟩
  · rw [match_md_plain (hmem _ (by decide)) (hmem _ (by decide)) (hmem _ (by decide))
      (hmem _ (by decide)), strncpy_of_le (by rw [List.length_replicate]; decide)]
    rfl
  · rw [hout]
    intro h
    have := congrArg List.length h
    simp only [List.length_append, List.length_replicate] at this
    exact absurd this (by decide)

theorem match_md_append (r : MdRegexes) (s : List Char) (doc : List MdNode) :
    ∃ node, match_md r s doc = doc ++ [node] := by
  unfold match_md
  cases match_single_capture r.heading_3 s MAX_CAPTURE_SIZE <;>
  cases match_single_capture r.heading_2 s MAX_CAPTURE_SIZE <;>
  cases match_single_capture r.heading_1 s MAX_CAPTURE_SIZE <;>
  cases match_single_capture r.block_quote s MAX_CAPTURE_SIZE <;>
  cases match_no_capture r.line s <;>
  cases match_single_capture r.text_bold s MAX_CAPTURE_SIZE <;>
  cases match_single_capture r.text_italics s MAX_CAPTURE_SIZE <;>
  simp [md_list_append_eq]

theorem noSpecial_iff {s : List Char} :
    noSpecial s = true ↔ '#' ∉ s ∧ '>' ∉ s ∧ '-' ∉ s ∧ '*' ∉ s := by
  induction s with
  | nil => simp [noSpecial]
  | cons x s ih =>
    simp only [noSpecial, List.all_cons, Bool.and_eq_true] at ih ⊢
    rw [ih]
    simp only [bne_iff_ne, ne_eq, List.mem_cons, not_or]
    constructor
    · rintro ⟨⟨⟨⟨h1, h2⟩, h3⟩, h4⟩, g1, g2, g3, g4⟩
      exact ⟨⟨Ne.symm h1, g1⟩, ⟨Ne.symm h2, g2⟩, ⟨Ne.symm h3, g3⟩, ⟨Ne.symm h4, g4⟩⟩
    · rintro ⟨⟨h1, g1⟩, ⟨h2, g2⟩, ⟨h3, g3⟩, ⟨h4, g4⟩⟩
      exact ⟨⟨⟨⟨Ne.symm h1, Ne.symm h2⟩, Ne.symm h3⟩, Ne.symm h4⟩, g1, g2, g3, g4⟩

/-- C2. Classification is total and falls back to plain text: for every non-empty line
of at most 1023 bytes `match_md` appends exactly one node; when none of the seven rules
matches (with a non-empty capture for the capturing rules) that node is plain text with
the line as payload; this is so in particular when the line contains none of `#`, `>`,
`-`, `*`. -/
theorem match_md_total_fallback (L : List Char) (_hne : L ≠ []) (hlen : L.length ≤ 1023)
    (doc : List MdNode) :
    (∃ node, match_md md_regexes_create L doc = doc ++ [node]) ∧
      (noRuleMatches md_regexes_create L = true →
        match_md md_regexes_create L doc = doc ++ [⟨.MD_TYPE_TEXT, L⟩]) ∧
      ('#' ∉ L → '>' ∉ L → '-' ∉ L → '*' ∉ L →
        match_md md_regexes_create L doc = doc ++ [⟨.MD_TYPE_TEXT, L⟩]) := by
  have hcopy : strncpy L MAX_LINE_SIZE = L := strncpy_of_le (by simp only [MAX_LINE_SIZE]; omega)
  refine ⟨match_md_append _ _ _, ?_, ?_⟩
  · intro h
    simp only [noRuleMatches, Bool.and_eq_true, Bool.not_eq_true'] at h
    obtain ⟨⟨⟨⟨⟨⟨h3, h2⟩, h1⟩, hq⟩, hl⟩, hb⟩, hi⟩ := h
    simp only [match_md, msc_none_of_not_captures h3, msc_none_of_not_captures h2,
      msc_none_of_not_captures h1, msc_none_of_not_captures hq, hl,
      msc_none_of_not_captures hb, msc_none_of_not_captures hi, md_list_append_eq, hcopy]
    simp
  · intro h1 h2 h3 h4
    rw [match_md_plain h1 h2 h3 h4, hcopy]

/-- Witness for C2: the line `plain line`. -/
theorem match_md_total_fallback_witness :
    "plain line".toList ≠ [] ∧ "plain line".toList.length ≤ 1023 ∧
      match_md md_regexes_create "plain line".toList [] =
        [⟨.MD_TYPE_TEXT, "plain line".toList⟩] :=
  ⟨by decide, by decide,
    (match_md_total_fallback "plain line".toList (by decide) (by decide) []).2.2
      (by decide) (by decide) (by decide) (by decide)⟩

/-- C3. Level-3 precedence: a line made of `###`, one or more spaces and a non-empty
text that does not begin with a space, at most 1023 bytes long, is classified Heading3
with exactly that text as payload, hence neither Heading1 nor Heading2. -/
theorem heading_3_precedence (n : Nat) (t : List Char) (hne : t ≠ [])
    (hsp : t.head? ≠ some ' ')
    (hlen : ("###".toList ++ (List.replicate (n + 1) ' ' ++ t)).length ≤ 1023)
    (doc : List MdNode) :
    match_md md_regexes_create ("###".toList ++ (List.replicate (n + 1) ' ' ++ t)) doc =
        doc ++ [⟨.MD_TYPE_HEADING_3, t⟩] ∧
      lastType (match_md md_regexes_create
        ("###".toList ++ (List.replicate (n + 1) ' ' ++ t)) doc) ≠ some .MD_TYPE_HEADING_1 ∧
      lastType (match_md md_regexes_create
        ("###".toList ++ (List.replicate (n + 1) ' ' ++ t)) doc) ≠ some .MD_TYPE_HEADING_2 := by
  have hpos : 0 < t.length := List.length_pos.mpr hne
  have hl : t.length < 1023 := by
    simp only [List.length_append, List.length_replicate] at hlen
    omega
  have h3 := msc_heading_found 3 0 n hsp
  rw [← heading_3_eq, if_pos ⟨hpos, hl⟩] at h3
  have hline : "###".toList ++ (List.replicate (n + 1) ' ' ++ t) =
      List.replicate 0 '#' ++ (List.replicate 3 '#' ++ (List.replicate (n + 1) ' ' ++ t)) := rfl
  have hm : match_md md_regexes_create ("###".toList ++ (List.replicate (n + 1) ' ' ++ t)) doc =
      doc ++ [⟨.MD_TYPE_HEADING_3, t⟩] := by
    rw [hline]
    simp only [match_md, h3, md_list_append_eq]
    rw [strncpy_of_le (by simp only [MAX_LINE_SIZE]; omega)]
  rw [hm, lastType_append]
  exact ⟨rfl, by simp, by simp⟩

/-- Witness for C3: the line `### Sub`. -/
theorem heading_3_precedence_witness :
    "Sub".toList ≠ [] ∧ "Sub".toList.head? ≠ some ' ' ∧
      match_md md_regexes_create ("###".toList ++ (List.replicate (0 + 1) ' ' ++ "Sub".toList)) [] =
        [⟨.MD_TYPE_HEADING_3, "Sub".toList⟩] :=
  ⟨by decide, by decide,
    (heading_3_precedence 0 "Sub".toList (by decide) (by decide) (by decide) []).1⟩

/-- Copying into the 1024-byte content buffer keeps the first 1024 bytes: a short
prefix `p` and as much of the run after it as fits. -/
theorem strncpy_run (p q : List Char) (c : Char) (n : Nat) (hp : p.length ≤ 1024)
    (hn : 1024 ≤ p.length + n) :
    strncpy (p ++ (List.replicate n c ++ q)) MAX_LINE_SIZE =
      p ++ List.replicate (1024 - p.length) c := by
  simp only [strncpy, MAX_LINE_SIZE]
  rw [List.take_append_eq_append_take, List.take_of_length_le hp,
    List.take_append_eq_append_take, List.take_replicate, List.length_replicate,
    Nat.min_eq_left (by omega), List.take_eq_nil_iff.mpr (Or.inl (by omega)),
    List.append_nil]

theorem not_mem_replicate_of_ne {c d : Char} (h : c ≠ d) (n : Nat) : c ∉ List.replicate n d :=
  fun hm => h (List.eq_of_mem_replicate hm)

/-! ### The `if`/`else if` chain of `match_md`, one lemma per branch -/

theorem match_md_heading_3 (r : MdRegexes) (s : List Char) (doc : List MdNode)
    {c : List Char}
    (h3 : match_single_capture r.heading_3 s MAX_CAPTURE_SIZE = some c) :
    match_md r s doc = doc ++ [⟨.MD_TYPE_HEADING_3, strncpy c MAX_LINE_SIZE⟩] := by
  simp only [match_md, h3, md_list_append_eq]

theorem match_md_heading_2 (r : MdRegexes) (s : List Char) (doc : List MdNode)
    {c : List Char}
    (h3 : match_single_capture r.heading_3 s MAX_CAPTURE_SIZE = none)
    (h2 : match_single_capture r.heading_2 s MAX_CAPTURE_SIZE = some c) :
    match_md r s doc = doc ++ [⟨.MD_TYPE_HEADING_2, strncpy c MAX_LINE_SIZE⟩] := by
  simp only [match_md, h3, h2, md_list_append_eq]

theorem match_md_heading_1 (r : MdRegexes) (s : List Char) (doc : List MdNode)
    {c : List Char}
    (h3 : match_single_capture r.heading_3 s MAX_CAPTURE_SIZE = none)
    (h2 : match_single_capture r.heading_2 s MAX_CAPTURE_SIZE = none)
    (h1 : match_single_capture r.heading_1 s MAX_CAPTURE_SIZE = some c) :
    match_md r s doc = doc ++ [⟨.MD_TYPE_HEADING_1, strncpy c MAX_LINE_SIZE⟩] := by
  simp only [match_md, h3, h2, h1, md_list_append_eq]

theorem match_md_block_quote (r : MdRegexes) (s : List Char) (doc : List MdNode)
    {c : List Char}
    (h3 : match_single_capture r.heading_3 s MAX_CAPTURE_SIZE = none)
    (h2 : match_single_capture r.heading_2 s MAX_CAPTURE_SIZE = none)
    (h1 : match_single_capture r.heading_1 s MAX_CAPTURE_SIZE = none)
    (hq : match_single_capture r.block_quote s MAX_CAPTURE_SIZE = some c) :
    match_md r s doc = doc ++ [⟨.MD_TYPE_BLOCK_QUOTE, strncpy c MAX_LINE_SIZE⟩] := by
  simp only [match_md, h3, h2, h1, hq, md_list_append_eq]

theorem match_md_line (r : MdRegexes) (s : List Char) (doc : List MdNode)
    (h3 : match_single_capture r.heading_3 s MAX_CAPTURE_SIZE = none)
    (h2 : match_single_capture r.heading_2 s MAX_CAPTURE_SIZE = none)
    (h1 : match_single_capture r.heading_1 s MAX_CAPTURE_SIZE = none)
    (hq : match_single_capture r.block_quote s MAX_CAPTURE_SIZE = none)
    (hl : match_no_capture r.line s = true) :
    match_md r s doc = doc ++ [⟨.MD_TYPE_LINE, []⟩] := by
  simp only [match_md, h3, h2, h1, hq, hl, md_list_append_eq, if_true]
  rfl

theorem match_md_text_bold (r : MdRegexes) (s : List Char) (doc : List MdNode)
    {c : List Char}
    (h3 : match_single_capture r.heading_3 s MAX_CAPTURE_SIZE = none)
    (h2 : match_single_capture r.heading_2 s MAX_CAPTURE_SIZE = none)
    (h1 : match_single_capture r.heading_1 s MAX_CAPTURE_SIZE = none)
    (hq : match_single_capture r.block_quote s MAX_CAPTURE_SIZE = none)
    (hl : match_no_capture r.line s = false)
    (hb : match_single_capture r.text_bold s MAX_CAPTURE_SIZE = some c) :
    match_md r s doc = doc ++ [⟨.MD_TYPE_TEXT_BOLD, strncpy c MAX_LINE_SIZE⟩] := by
  simp only [match_md, h3, h2, h1, hq, hl, hb, md_list_append_eq, Bool.false_eq_true, if_false]

theorem match_md_text_italics (r : MdRegexes) (s : List Char) (doc : List MdNode)
    {c : List Char}
    (h3 : match_single_capture r.heading_3 s MAX_CAPTURE_SIZE = none)
    (h2 : match_single_capture r.heading_2 s MAX_CAPTURE_SIZE = none)
    (h1 : match_single_capture r.heading_1 s MAX_CAPTURE_SIZE = none)
    (hq : match_single_capture r.block_quote s MAX_CAPTURE_SIZE = none)
    (hl : match_no_capture r.line s = false)
    (hb : match_single_capture r.text_bold s MAX_CAPTURE_SIZE = none)
    (hi : match_single_capture r.text_italics s MAX_CAPTURE_SIZE = some c) :
    match_md r s doc = doc ++ [⟨.MD_TYPE_TEXT_ITALICS, strncpy c MAX_LINE_SIZE⟩] := by
  simp only [match_md, h3, h2, h1, hq, hl, hb, hi, md_list_append_eq, Bool.false_eq_true,
    if_false]

theorem match_md_text (r : MdRegexes) (s : List Char) (doc : List MdNode)
    (h3 : match_single_capture r.heading_3 s MAX_CAPTURE_SIZE = none)
    (h2 : match_single_capture r.heading_2 s MAX_CAPTURE_SIZE = none)
    (h1 : match_single_capture r.heading_1 s MAX_CAPTURE_SIZE = none)
    (hq : match_single_capture r.block_quote s MAX_CAPTURE_SIZE = none)
    (hl : match_no_capture r.line s = false)
    (hb : match_single_capture r.text_bold s MAX_CAPTURE_SIZE = none)
    (hi : match_single_capture r.text_italics s MAX_CAPTURE_SIZE = none) :
    match_md r s doc = doc ++ [⟨.MD_TYPE_TEXT, strncpy s MAX_LINE_SIZE⟩] := by
  simp only [match_md, h3, h2, h1, hq, hl, hb, hi, md_list_append_eq, Bool.false_eq_true,
    if_false]

/-- The heading rule with `j` hashes on a run of `k` hashes followed by spaces and a
text: it succeeds only when `j ≤ k` and the text is non-empty and shorter than 1023
bytes, and then captures the text. -/
theorem msc_heading_exact (j k n : Nat) (hj : 1 ≤ j) {t : List Char}
    (ht : t.head? ≠ some ' ') (hh : '#' ∉ t) :
    match_single_capture (headingRe j)
        (List.replicate k '#' ++ (List.replicate (n + 1) ' ' ++ t)) MAX_CAPTURE_SIZE =
      if j ≤ k ∧ 0 < t.length ∧ t.length < 1023 then some t else none := by
  by_cases hjk : j ≤ k
  · obtain ⟨i, rfl⟩ : ∃ i, k = i + j := ⟨k - j, by omega⟩
    rw [List.replicate_add, List.append_assoc, msc_heading_found j i n ht]
    simp
  · rw [if_neg (fun h => hjk h.1)]
    apply msc_heading_none j k hj _ (Or.inl (by omega))
    intro hm
    rcases List.mem_append.mp hm with hm | hm
    · exact absurd (List.eq_of_mem_replicate hm) (by decide)
    · exact hh hm

/-- The last four rules and the block-quote rule fail on a line without `>`, `-`
and `*`. -/
theorem later_rules_none {s : List Char} (h2 : '>' ∉ s) (h3 : '-' ∉ s) (h4 : '*' ∉ s) :
    match_single_capture md_regexes_create.block_quote s MAX_CAPTURE_SIZE = none ∧
      match_no_capture md_regexes_create.line s = false ∧
      match_single_capture md_regexes_create.text_bold s MAX_CAPTURE_SIZE = none ∧
      match_single_capture md_regexes_create.text_italics s MAX_CAPTURE_SIZE = none := by
  have hc : s.count '*' = 0 := List.count_eq_zero.mpr h4
  exact ⟨msc_block_quote_none h2 _, line_none h3,
    msc_text_bold_none (by omega) _, msc_text_italics_none (by omega) _⟩

/-- What `match_md` does with `k` hashes (`k` is 1 or 2), spaces and a text `t` that
has none of `#`, `>`, `-`, `*`: the heading of level `k` when `t` is non-empty and
shorter than 1023 bytes, the fallback otherwise. -/
theorem match_md_hashes_text (k n : Nat) (hk : k = 1 ∨ k = 2) {t : List Char}
    (ht : t.head? ≠ some ' ')
    (h1 : '#' ∉ t) (h2 : '>' ∉ t) (h3 : '-' ∉ t) (h4 : '*' ∉ t) (doc : List MdNode) :
    match_md md_regexes_create (List.replicate k '#' ++ (List.replicate (n + 1) ' ' ++ t)) doc =
      doc ++ [if 0 < t.length ∧ t.length < 1023 then
          ⟨if k = 1 then .MD_TYPE_HEADING_1 else .MD_TYPE_HEADING_2, t⟩
        else ⟨.MD_TYPE_TEXT,
          strncpy (List.replicate k '#' ++ (List.replicate (n + 1) ' ' ++ t)) MAX_LINE_SIZE⟩] := by
  have hmem : ∀ c : Char, c ≠ '#' → c ≠ ' ' → c ∉ t →
      c ∉ List.replicate k '#' ++ (List.replicate (n + 1) ' ' ++ t) := by
    intro c hc1 hc2 hct hm
    rcases List.mem_append.mp hm with hm | hm
    · exact hc1 (List.eq_of_mem_replicate hm)
    · rcases List.mem_append.mp hm with hm | hm
      · exact hc2 (List.eq_of_mem_replicate hm)
      · exact hct hm
  obtain ⟨eq, el, eb, ei⟩ := later_rules_none (hmem '>' (by decide) (by decide) h2)
    (hmem '-' (by decide) (by decide) h3) (hmem '*' (by decide) (by decide) h4)
  have e3 : match_single_capture md_regexes_create.heading_3
      (List.replicate k '#' ++ (List.replicate (n + 1) ' ' ++ t)) MAX_CAPTURE_SIZE = none := by
    have := msc_heading_exact 3 k n (by decide) ht h1
    rw [if_neg (by omega)] at this
    exact this
  have e2 := msc_heading_exact 2 k n (by decide) ht h1
  have e1 := msc_heading_exact 1 k n (by decide) ht h1
  rw [← heading_2_eq] at e2
  rw [← heading_1_eq] at e1
  by_cases hc : 0 < t.length ∧ t.length < 1023
  · rw [if_pos hc]
    have hcopy : strncpy t MAX_LINE_SIZE = t :=
      strncpy_of_le (by simp only [MAX_LINE_SIZE]; omega)
    rcases hk with rfl | rfl
    · rw [if_neg (by omega)] at e2
      rw [if_pos ⟨by omega, hc⟩] at e1
      rw [match_md_heading_1 _ _ _ e3 e2 e1, hcopy]
      rfl
    · rw [if_pos ⟨by omega, hc⟩] at e2
      rw [match_md_heading_2 _ _ _ e3 e2, hcopy]
      rfl
  · rw [if_neg hc]
    rw [if_neg (fun h => hc h.2)] at e2 e1
    rw [match_md_text _ _ _ e3 e2 e1 eq el eb ei]

/-- C4 (amended). For every non-empty text `t` of at most 1022 bytes that does not
begin with a space and contains no `#`, and every run of one or more spaces,
`#`, the spaces and `t` are classified Heading1 with payload `t`, and `##`, the spaces
and `t` are classified Heading2 with payload `t`. -/
theorem heading_1_and_2 (n : Nat) (t : List Char) (hne : t ≠ []) (hsp : t.head? ≠ some ' ')
    (hhash : '#' ∉ t) (hlen : t.length ≤ 1022) (doc : List MdNode) :
    match_md md_regexes_create ("#".toList ++ (List.replicate (n + 1) ' ' ++ t)) doc =
        doc ++ [⟨.MD_TYPE_HEADING_1, t⟩] ∧
      match_md md_regexes_create ("##".toList ++ (List.replicate (n + 1) ' ' ++ t)) doc =
        doc ++ [⟨.MD_TYPE_HEADING_2, t⟩] := by
  have hpos : 0 < t.length := List.length_pos.mpr hne
  have hcopy : strncpy t MAX_LINE_SIZE = t :=
    strncpy_of_le (by simp only [MAX_LINE_SIZE]; omega)
  have e : ∀ j k : Nat, 1 ≤ j → match_single_capture (headingRe j)
      (List.replicate k '#' ++ (List.replicate (n + 1) ' ' ++ t)) MAX_CAPTURE_SIZE =
      if j ≤ k then some t else none := by
    intro j k hj
    rw [msc_heading_exact j k n hj hsp hhash]
    by_cases hjk : j ≤ k
    · rw [if_pos ⟨hjk, hpos, by omega⟩, if_pos hjk]
    · rw [if_neg (fun h => hjk h.1), if_neg hjk]
  constructor
  · have e3 := e 3 1 (by decide)
    have e2 := e 2 1 (by decide)
    have e1 := e 1 1 (by decide)
    rw [if_neg (by decide)] at e3 e2
    rw [if_pos (by decide)] at e1
    have := match_md_heading_1 md_regexes_create _ doc e3 e2 e1
    rw [hcopy] at this
    exact this
  · have e3 := e 3 2 (by decide)
    have e2 := e 2 2 (by decide)
    rw [if_neg (by decide)] at e3
    rw [if_pos (by decide)] at e2
    have := match_md_heading_2 md_regexes_create _ doc e3 e2
    rw [hcopy] at this
    exact this

/-- Witness for C4: the lines `# Title` and `## Title`. -/
theorem heading_1_and_2_witness :
    "Title".toList ≠ [] ∧ "Title".toList.head? ≠ some ' ' ∧ '#' ∉ "Title".toList ∧
      "Title".toList.length ≤ 1022 ∧
      match_md md_regexes_create ("#".toList ++ (List.replicate (0 + 1) ' ' ++ "Title".toList)) [] =
        [⟨.MD_TYPE_HEADING_1, "Title".toList⟩] ∧
      match_md md_regexes_create ("##".toList ++ (List.replicate (0 + 1) ' ' ++ "Title".toList)) [] =
        [⟨.MD_TYPE_HEADING_2, "Title".toList⟩] :=
  ⟨by decide, by decide, by decide, by decide,
    heading_1_and_2 0 "Title".toList (by decide) (by decide) (by decide) (by decide) []⟩

/-- C4 as stated fails: with the 1023-byte text of `a` after `# ` the heading rules do
not apply (the capture is not shorter than 1023 bytes) and the line becomes plain
text, cut to the 1024 bytes of the content buffer. -/
theorem heading_1_capture_too_long :
    List.replicate 1023 'a' ≠ [] ∧ (List.replicate 1023 'a').head? ≠ some ' ' ∧
      '#' ∉ List.replicate 1023 'a' ∧
      match_md md_regexes_create
          ("#".toList ++ (List.replicate (0 + 1) ' ' ++ List.replicate 1023 'a')) [] =
        [⟨.MD_TYPE_TEXT, "# ".toList ++ List.replicate 1022 'a'⟩] := by
  refine ⟨by decide, by decide, not_mem_replicate_of_ne (by decide) _, ?_⟩
  have h := match_md_hashes_text 1 0 (Or.inl rfl) (t := List.replicate 1023 'a') (by decide)
    (not_mem_replicate_of_ne (by decide) _) (not_mem_replicate_of_ne (by decide) _)
    (not_mem_replicate_of_ne (by decide) _) (not_mem_replicate_of_ne (by decide) _) []
  rw [if_neg (by rw [List.length_replicate]; decide)] at h
  have hc := strncpy_run "# ".toList [] 'a' 1023 (by decide) (by decide)
  rw [List.append_nil] at hc
  exact h.trans (congrArg (fun c => [MdNode.mk .MD_TYPE_TEXT c]) hc)

/-- A text either does not start with a space or is a run of spaces followed by a
text that does not start with a space. -/
theorem head_space_cases (r : List Char) :
    r.head? ≠ some ' ' ∨
      ∃ n t, r = List.replicate (n + 1) ' ' ++ t ∧ t.head? ≠ some ' ' := by
  induction r with
  | nil => left; simp
  | cons x r ih =>
    by_cases hx : x = ' '
    · subst hx
      right
      rcases ih with h | ⟨n, t, rfl, ht⟩
      · exact ⟨0, r, rfl, h⟩
      · exact ⟨n + 1, t, rfl, ht⟩
    · left
      simpa using hx

/-- On a line whose hashes are its first `k` characters, every heading rule with at
most `k` hashes has the same outcome and every rule with more hashes fails. -/
theorem heading_run_outcome (k : Nat) {r : List Char} (hr : '#' ∉ r) :
    ∃ v : Option (List Char), ∀ j, 1 ≤ j →
      match_single_capture (headingRe j) (List.replicate k '#' ++ r) MAX_CAPTURE_SIZE =
        if j ≤ k then v else none := by
  rcases head_space_cases r with h | ⟨n, t, rfl, ht⟩
  · refine ⟨none, fun j hj => ?_⟩
    rw [msc_heading_none j k hj hr (Or.inr h)]
    simp
  · have hh : '#' ∉ t := fun hm => hr (List.mem_append_right _ hm)
    refine ⟨if 0 < t.length ∧ t.length < 1023 then some t else none, fun j hj => ?_⟩
    rw [msc_heading_exact j k n hj ht hh]
    by_cases hjk : j ≤ k
    · simp [hjk]
    · simp [hjk]

/-- C5 (amended). On a line whose `#` characters all stand in its leading run of
hashes, the heading level is decided by that run: with three or more hashes the line
is never classified Heading1 or Heading2; with exactly two, if a heading rule succeeds
the line is classified Heading2; with exactly one it is never classified Heading2 or
Heading3. -/
theorem heading_level_by_leading_hashes (k : Nat) (r : List Char) (hr : '#' ∉ r)
    (doc : List MdNode) :
    (3 ≤ k →
      lastType (match_md md_regexes_create (List.replicate k '#' ++ r) doc) ≠
          some .MD_TYPE_HEADING_1 ∧
        lastType (match_md md_regexes_create (List.replicate k '#' ++ r) doc) ≠
          some .MD_TYPE_HEADING_2) ∧
    (k = 2 →
      ((match_single_capture md_regexes_create.heading_3 (List.replicate k '#' ++ r)
            MAX_CAPTURE_SIZE).isSome ∨
        (match_single_capture md_regexes_create.heading_2 (List.replicate k '#' ++ r)
            MAX_CAPTURE_SIZE).isSome ∨
        (match_single_capture md_regexes_create.heading_1 (List.replicate k '#' ++ r)
            MAX_CAPTURE_SIZE).isSome) →
      lastType (match_md md_regexes_create (List.replicate k '#' ++ r) doc) =
        some .MD_TYPE_HEADING_2) ∧
    (k = 1 →
      lastType (match_md md_regexes_create (List.replicate k '#' ++ r) doc) ≠
          some .MD_TYPE_HEADING_2 ∧
        lastType (match_md md_regexes_create (List.replicate k '#' ++ r) doc) ≠
          some .MD_TYPE_HEADING_3) := by
  obtain ⟨v, hv⟩ := heading_run_outcome k hr
  have e3 := hv 3 (by decide)
  have e2 := hv 2 (by decide)
  have e1 := hv 1 (by decide)
  rw [← heading_3_eq] at e3
  rw [← heading_2_eq] at e2
  rw [← heading_1_eq] at e1
  refine ⟨fun hk => ?_, fun hk => ?_, fun hk => ?_⟩
  · rw [if_pos hk] at e3
    rw [if_pos (show 2 ≤ k by omega)] at e2
    rw [if_pos (show 1 ≤ k by omega)] at e1
    rw [lastType_match_md, e3, e2, e1]
    cases v with
    | none => constructor <;> (simp only [Option.isSome_none, Bool.false_eq_true, if_false]; split_ifs <;> simp)
    | some c => simp
  · subst hk
    rw [if_neg (show ¬ 3 ≤ 2 by decide)] at e3
    rw [if_pos (show 2 ≤ 2 by decide)] at e2
    rw [if_pos (show 1 ≤ 2 by decide)] at e1
    rw [lastType_match_md, e3, e2, e1]
    cases v with
    | none => simp
    | some c => simp
  · subst hk
    rw [if_neg (show ¬ 3 ≤ 1 by decide)] at e3
    rw [if_neg (show ¬ 2 ≤ 1 by decide)] at e2
    rw [if_pos (show 1 ≤ 1 by decide)] at e1
    rw [lastType_match_md, e3, e2, e1]
    cases v with
    | none => constructor <;> (simp only [Option.isSome_none, Bool.false_eq_true, if_false]; split_ifs <;> simp)
    | some c => simp

/-- Witness for C5: the line `## Sub`, two leading hashes and no other hash. -/
theorem heading_level_by_leading_hashes_witness :
    '#' ∉ " Sub".toList ∧
      lastType (match_md md_regexes_create (List.replicate 2 '#' ++ " Sub".toList) []) =
        some .MD_TYPE_HEADING_2 :=
  ⟨by decide,
    (heading_level_by_leading_hashes 2 " Sub".toList (by decide) []).2.1 rfl
      (Or.inr (Or.inl (by decide)))⟩

/-- C5 as stated fails, because the patterns are not anchored at the start of the
line: `###x # y` starts with `###` and is classified Heading1; `##x # y` starts with
`##` but not `###`, a heading rule matches, and it is classified Heading1;
`# a ## b` starts with a single `#` and is classified Heading2. -/
theorem heading_level_unanchored :
    match_md md_regexes_create "###x # y".toList [] = [⟨.MD_TYPE_HEADING_1, "y".toList⟩] ∧
      match_md md_regexes_create "##x # y".toList [] = [⟨.MD_TYPE_HEADING_1, "y".toList⟩] ∧
      match_md md_regexes_create "# a ## b".toList [] = [⟨.MD_TYPE_HEADING_2, "b".toList⟩] := by
  decide

/-- A run of hashes followed only by spaces goes to the fallback. -/
theorem match_md_hashes_spaces (k m : Nat) (doc : List MdNode) :
    match_md md_regexes_create (List.replicate k '#' ++ List.replicate m ' ') doc =
      doc ++ [⟨.MD_TYPE_TEXT,
        strncpy (List.replicate k '#' ++ List.replicate m ' ') MAX_LINE_SIZE⟩] := by
  have hmem : ∀ c : Char, c ≠ '#' → c ≠ ' ' →
      c ∉ List.replicate k '#' ++ List.replicate m ' ' := by
    intro c hc1 hc2 hm
    rcases List.mem_append.mp hm with hm | hm
    · exact hc1 (List.eq_of_mem_replicate hm)
    · exact hc2 (List.eq_of_mem_replicate hm)
  obtain ⟨eq, el, eb, ei⟩ := later_rules_none (hmem '>' (by decide) (by decide))
    (hmem '-' (by decide) (by decide)) (hmem '*' (by decide) (by decide))
  have e : ∀ j, 1 ≤ j → match_single_capture (headingRe j)
      (List.replicate k '#' ++ List.replicate m ' ') MAX_CAPTURE_SIZE = none := by
    intro j hj
    cases m with
    | zero =>
      exact msc_heading_none j k hj (by simp) (Or.inr (by simp))
    | succ n =>
      have := msc_heading_exact j k n hj (t := []) (by simp) (by simp)
      rw [if_neg (by simp)] at this
      simpa using this
  exact match_md_text _ _ _ (e 3 (by decide)) (e 2 (by decide)) (e 1 (by decide)) eq el eb ei

/-- A `>` followed only by spaces goes to the fallback. -/
theorem match_md_quote_spaces (m : Nat) (doc : List MdNode) :
    match_md md_regexes_create (">".toList ++ List.replicate m ' ') doc =
      doc ++ [⟨.MD_TYPE_TEXT, strncpy (">".toList ++ List.replicate m ' ') MAX_LINE_SIZE⟩] := by
  have hmem : ∀ c : Char, c ≠ '>' → c ≠ ' ' → c ∉ ">".toList ++ List.replicate m ' ' := by
    intro c hc1 hc2 hm
    rcases List.mem_append.mp hm with hm | hm
    · exact hc1 (by simpa using hm)
    · exact hc2 (List.eq_of_mem_replicate hm)
  have hc : (">".toList ++ List.replicate m ' ').count '*' = 0 :=
    List.count_eq_zero.mpr (hmem '*' (by decide) (by decide))
  have e : ∀ j, 1 ≤ j → match_single_capture (headingRe j)
      (">".toList ++ List.replicate m ' ') MAX_CAPTURE_SIZE = none := fun j hj =>
    msc_heading_none_of_not_mem j hj (hmem '#' (by decide) (by decide))
  have eq : match_single_capture md_regexes_create.block_quote
      (">".toList ++ List.replicate m ' ') MAX_CAPTURE_SIZE = none := by
    have := msc_block_quote (a := []) (t := []) m (by simp) (by simp)
    rw [if_neg (by simp)] at this
    simpa using this
  exact match_md_text _ _ _ (e 3 (by decide)) (e 2 (by decide)) (e 1 (by decide)) eq
    (line_none (hmem '-' (by decide) (by decide)))
    (msc_text_bold_none (by omega) _) (msc_text_italics_none (by omega) _)

/-- C6 (amended). Empty captures fall through to the fallback: every line of at most
1023 bytes that consists of one or more `#` followed by zero or more spaces, or of `>`
followed by zero or more spaces, is classified plain text with the whole line as
payload. -/
theorem empty_capture_falls_through (k m : Nat) (_hk : 1 ≤ k) (doc : List MdNode) :
    ((List.replicate k '#' ++ List.replicate m ' ').length ≤ 1023 →
      match_md md_regexes_create (List.replicate k '#' ++ List.replicate m ' ') doc =
        doc ++ [⟨.MD_TYPE_TEXT, List.replicate k '#' ++ List.replicate m ' '⟩]) ∧
    ((">".toList ++ List.replicate m ' ').length ≤ 1023 →
      match_md md_regexes_create (">".toList ++ List.replicate m ' ') doc =
        doc ++ [⟨.MD_TYPE_TEXT, ">".toList ++ List.replicate m ' '⟩]) := by
  constructor
  · intro h
    rw [match_md_hashes_spaces, strncpy_of_le (by simp only [MAX_LINE_SIZE]; omega)]
  · intro h
    rw [match_md_quote_spaces, strncpy_of_le (by simp only [MAX_LINE_SIZE]; omega)]

/-- Witness for C6: the line `#` is plain text with payload `#`. -/
theorem empty_capture_falls_through_witness :
    1 ≤ 1 ∧ (List.replicate 1 '#' ++ List.replicate 0 ' ').length ≤ 1023 ∧
      match_md md_regexes_create (List.replicate 1 '#' ++ List.replicate 0 ' ') [] =
        [⟨.MD_TYPE_TEXT, "#".toList⟩] :=
  ⟨by decide, by decide, (empty_capture_falls_through 1 0 (by decide) []).1 (by decide)⟩

/-- C6 as stated fails: the line of 1025 hashes becomes plain text whose payload is
only the 1024 bytes that fit the content buffer, not the whole line. -/
theorem empty_capture_payload_cut :
    match_md md_regexes_create (List.replicate 1025 '#' ++ List.replicate 0 ' ') [] =
        [⟨.MD_TYPE_TEXT, List.replicate 1024 '#'⟩] ∧
      match_md md_regexes_create (List.replicate 1025 '#' ++ List.replicate 0 ' ') [] ≠
        [⟨.MD_TYPE_TEXT, List.replicate 1025 '#' ++ List.replicate 0 ' '⟩] := by
  have hc := strncpy_run [] (List.replicate 0 ' ') '#' 1025 (by decide) (by decide)
  have h : match_md md_regexes_create (List.replicate 1025 '#' ++ List.replicate 0 ' ') [] =
      [⟨.MD_TYPE_TEXT, List.replicate 1024 '#'⟩] :=
    (match_md_hashes_spaces 1025 0 []).trans
      (congrArg (fun c => [MdNode.mk .MD_TYPE_TEXT c]) hc)
  refine ⟨h, ?_⟩
  rw [h]
  intro hne
  have := congrArg (fun l => (l.map fun n => n.content.length)) hne
  simp only [List.map_cons, List.map_nil, List.length_replicate, List.length_append] at this
  exact absurd this (by decide)

/-- C7 (amended). Thematic break: a line that consists of zero or more spaces, `-`,
zero or more spaces, `-`, zero or more spaces, `-` and any rest is classified
ThematicBreak with empty payload whenever none of the four earlier rules (Heading3,
Heading2, Heading1, BlockQuote) succeeds on it, in particular whenever the rest
contains no `#` and no `>`. -/
theorem thematic_break_rule (a b c : Nat) (rest : List Char) (doc : List MdNode) :
    (match_single_capture md_regexes_create.heading_3 (thematicLine a b c rest)
          MAX_CAPTURE_SIZE = none →
      match_single_capture md_regexes_create.heading_2 (thematicLine a b c rest)
          MAX_CAPTURE_SIZE = none →
      match_single_capture md_regexes_create.heading_1 (thematicLine a b c rest)
          MAX_CAPTURE_SIZE = none →
      match_single_capture md_regexes_create.block_quote (thematicLine a b c rest)
          MAX_CAPTURE_SIZE = none →
      match_md md_regexes_create (thematicLine a b c rest) doc =
        doc ++ [⟨.MD_TYPE_LINE, []⟩]) ∧
    ('#' ∉ rest → '>' ∉ rest →
      match_md md_regexes_create (thematicLine a b c rest) doc =
        doc ++ [⟨.MD_TYPE_LINE, []⟩]) := by
  have hl : match_no_capture md_regexes_create.line (thematicLine a b c rest) = true :=
    line_matches a b c rest
  have hmem : ∀ x : Char, x ≠ ' ' → x ≠ '-' → x ∉ rest → x ∉ thematicLine a b c rest := by
    intro x h1 h2 h3 hm
    simp only [thematicLine, List.mem_append, List.mem_cons, List.mem_replicate] at hm
    tauto
  refine ⟨fun h3 h2 h1 hq => match_md_line _ _ _ h3 h2 h1 hq hl, fun hh hq => ?_⟩
  have e : ∀ j, 1 ≤ j → match_single_capture (headingRe j)
      (thematicLine a b c rest) MAX_CAPTURE_SIZE = none := fun j hj =>
    msc_heading_none_of_not_mem j hj (hmem '#' (by decide) (by decide) hh)
  exact match_md_line _ _ _ (e 3 (by decide)) (e 2 (by decide)) (e 1 (by decide))
    (msc_block_quote_none (hmem '>' (by decide) (by decide) hq) _) hl

/-- Witness for C7: the lines `---` and `  - - -  ` are thematic breaks. -/
theorem thematic_break_rule_witness :
    ('#' ∉ "".toList ∧ '>' ∉ "".toList ∧
      match_md md_regexes_create (thematicLine 0 0 0 "".toList) [] = [⟨.MD_TYPE_LINE, []⟩]) ∧
    ('#' ∉ "  ".toList ∧ '>' ∉ "  ".toList ∧
      match_md md_regexes_create (thematicLine 2 1 1 "  ".toList) [] = [⟨.MD_TYPE_LINE, []⟩]) :=
  ⟨⟨by decide, by decide,
      (thematic_break_rule 0 0 0 "".toList []).2 (by decide) (by decide)⟩,
    ⟨by decide, by decide,
      (thematic_break_rule 2 1 1 "  ".toList []).2 (by decide) (by decide)⟩⟩

/-- C7 as stated fails, because the heading and block-quote rules are tried first:
`--- # x` is three hyphens followed by ` # x` and is classified Heading1, and
`---> q` is classified BlockQuote. -/
theorem thematic_break_outranked :
    thematicLine 0 0 0 " # x".toList = "--- # x".toList ∧
      match_md md_regexes_create "--- # x".toList [] = [⟨.MD_TYPE_HEADING_1, "x".toList⟩] ∧
      thematicLine 0 0 0 "> q".toList = "---> q".toList ∧
      match_md md_regexes_create "---> q".toList [] = [⟨.MD_TYPE_BLOCK_QUOTE, "q".toList⟩] := by
  decide

/-- The block-quote rule on `>`, spaces and a text that does not begin with a space. -/
theorem msc_block_quote_line (n : Nat) {t : List Char} (ht : t.head? ≠ some ' ') :
    match_single_capture md_regexes_create.block_quote
        (">".toList ++ (List.replicate n ' ' ++ t)) MAX_CAPTURE_SIZE =
      if 0 < t.length ∧ t.length < 1023 then some t else none := by
  have := msc_block_quote (a := []) n (by simp) ht
  simpa using this

theorem not_mem_quote_line {c : Char} (n : Nat) {t : List Char} (h1 : c ≠ '>') (h2 : c ≠ ' ')
    (h3 : c ∉ t) : c ∉ ">".toList ++ (List.replicate n ' ' ++ t) := by
  intro hm
  rcases List.mem_append.mp hm with hm | hm
  · exact h1 (by simpa using hm)
  · rcases List.mem_append.mp hm with hm | hm
    · exact h2 (List.eq_of_mem_replicate hm)
    · exact h3 hm

/-- C8 (amended). Block quote: for every non-empty text `t` of at most 1022 bytes that
does not begin with a space and contains no `#`, and every run of zero or more spaces,
`>`, the spaces and `t` are classified BlockQuote with payload exactly `t`. -/
theorem block_quote_rule (n : Nat) (t : List Char) (hne : t ≠ []) (hsp : t.head? ≠ some ' ')
    (hhash : '#' ∉ t) (hlen : t.length ≤ 1022) (doc : List MdNode) :
    match_md md_regexes_create (">".toList ++ (List.replicate n ' ' ++ t)) doc =
      doc ++ [⟨.MD_TYPE_BLOCK_QUOTE, t⟩] := by
  have hpos : 0 < t.length := List.length_pos.mpr hne
  have e : ∀ j, 1 ≤ j → match_single_capture (headingRe j)
      (">".toList ++ (List.replicate n ' ' ++ t)) MAX_CAPTURE_SIZE = none := fun j hj =>
    msc_heading_none_of_not_mem j hj (not_mem_quote_line n (by decide) (by decide) hhash)
  have eq := msc_block_quote_line n hsp
  rw [if_pos ⟨hpos, by omega⟩] at eq
  rw [match_md_block_quote _ _ _ (e 3 (by decide)) (e 2 (by decide)) (e 1 (by decide)) eq,
    strncpy_of_le (by simp only [MAX_LINE_SIZE]; omega)]

/-- Witness for C8: the line `> quoted` is the block quote `quoted`, rendered as
`<blockquote>quoted</blockquote>` and a newline. -/
theorem block_quote_rule_witness :
    "quoted".toList ≠ [] ∧ "quoted".toList.head? ≠ some ' ' ∧ '#' ∉ "quoted".toList ∧
      "quoted".toList.length ≤ 1022 ∧
      match_md md_regexes_create (">".toList ++ (List.replicate 1 ' ' ++ "quoted".toList)) [] =
        [⟨.MD_TYPE_BLOCK_QUOTE, "quoted".toList⟩] ∧
      md_node_to_html ⟨.MD_TYPE_BLOCK_QUOTE, "quoted".toList⟩ MAX_LINE_SIZE =
        "<blockquote>quoted</blockquote>\n".toList :=
  ⟨by decide, by decide, by decide, by decide,
    block_quote_rule 1 "quoted".toList (by decide) (by decide) (by decide) (by decide) [],
    by decide⟩

/-- C8 as stated fails: with the 1023-byte text of `a` after `> ` the block-quote rule
does not apply (the capture is not shorter than 1023 bytes) and the line becomes plain
text, cut to the 1024 bytes of the content buffer. -/
theorem block_quote_capture_too_long :
    List.replicate 1023 'a' ≠ [] ∧ (List.replicate 1023 'a').head? ≠ some ' ' ∧
      '#' ∉ List.replicate 1023 'a' ∧
      match_md md_regexes_create
          (">".toList ++ (List.replicate 1 ' ' ++ List.replicate 1023 'a')) [] =
        [⟨.MD_TYPE_TEXT, "> ".toList ++ List.replicate 1022 'a'⟩] := by
  refine ⟨by decide, by decide, not_mem_replicate_of_ne (by decide) _, ?_⟩
  have hn : ∀ c : Char, c ≠ '>' → c ≠ ' ' → c ≠ 'a' →
      c ∉ ">".toList ++ (List.replicate 1 ' ' ++ List.replicate 1023 'a') := fun c h1 h2 h3 =>
    not_mem_quote_line 1 h1 h2 (not_mem_replicate_of_ne h3 _)
  have hc : (">".toList ++ (List.replicate 1 ' ' ++ List.replicate 1023 'a')).count '*' = 0 :=
    List.count_eq_zero.mpr (hn '*' (by decide) (by decide) (by decide))
  have e : ∀ j, 1 ≤ j → match_single_capture (headingRe j)
      (">".toList ++ (List.replicate 1 ' ' ++ List.replicate 1023 'a')) MAX_CAPTURE_SIZE =
      none := fun j hj =>
    msc_heading_none_of_not_mem j hj (hn '#' (by decide) (by decide) (by decide))
  have eq := msc_block_quote_line 1 (t := List.replicate 1023 'a') (by decide)
  rw [if_neg (by rw [List.length_replicate]; decide)] at eq
  have h := match_md_text md_regexes_create _ [] (e 3 (by decide)) (e 2 (by decide))
    (e 1 (by decide)) eq (line_none (hn '-' (by decide) (by decide) (by decide)))
    (msc_text_bold_none (by omega) _) (msc_text_italics_none (by omega) _)
  have hcut := strncpy_run "> ".toList [] 'a' 1023 (by decide) (by decide)
  rw [List.append_nil] at hcut
  exact h.trans (congrArg (fun c => [MdNode.mk .MD_TYPE_TEXT c]) hcut)

/-- The first five rules fail on a line built from texts without `#`, `>`, `-`. -/
theorem early_rules_none {s : List Char} (h1 : '#' ∉ s) (h2 : '>' ∉ s) (h3 : '-' ∉ s) :
    match_single_capture md_regexes_create.heading_3 s MAX_CAPTURE_SIZE = none ∧
      match_single_capture md_regexes_create.heading_2 s MAX_CAPTURE_SIZE = none ∧
      match_single_capture md_regexes_create.heading_1 s MAX_CAPTURE_SIZE = none ∧
      match_single_capture md_regexes_create.block_quote s MAX_CAPTURE_SIZE = none ∧
      match_no_capture md_regexes_create.line s = false :=
  ⟨msc_heading_none_of_not_mem 3 (by decide) h1, msc_heading_none_of_not_mem 2 (by decide) h1,
    msc_heading_none_of_not_mem 1 (by decide) h1, msc_block_quote_none h2 _, line_none h3⟩

/-- C9 (amended). Emphasis with surrounding text: for all texts `pre`, `post` and
non-empty `t` of at most 1022 bytes, none of which contains `#`, `>`, `-` or `*`, the
line `pre**t**post` is classified TextBold with payload exactly `t` and the line
`pre*t*post` is classified TextItalic with payload exactly `t`; `pre` and `post` are
discarded. -/
theorem emphasis_with_surrounding_text (pre t post : List Char)
    (hpre : noSpecial pre = true) (ht : noSpecial t = true) (hpost : noSpecial post = true)
    (hne : t ≠ []) (hlen : t.length ≤ 1022) (doc : List MdNode) :
    match_md md_regexes_create (pre ++ ("**".toList ++ (t ++ ("**".toList ++ post)))) doc =
        doc ++ [⟨.MD_TYPE_TEXT_BOLD, t⟩] ∧
      match_md md_regexes_create (pre ++ ("*".toList ++ (t ++ ("*".toList ++ post)))) doc =
        doc ++ [⟨.MD_TYPE_TEXT_ITALICS, t⟩] := by
  obtain ⟨p1, p2, p3, p4⟩ := noSpecial_iff.mp hpre
  obtain ⟨t1, t2, t3, t4⟩ := noSpecial_iff.mp ht
  obtain ⟨q1, q2, q3, q4⟩ := noSpecial_iff.mp hpost
  have hpos : 0 < t.length := List.length_pos.mpr hne
  have hcopy : strncpy t MAX_LINE_SIZE = t :=
    strncpy_of_le (by simp only [MAX_LINE_SIZE]; omega)
  have hmem : ∀ (c : Char) (d : List Char), c ∉ pre → c ∉ t → c ∉ post → c ∉ d →
      c ∉ pre ++ (d ++ (t ++ (d ++ post))) := by
    intro c d h1 h2 h3 h4 hm
    simp only [List.mem_append] at hm
    tauto
  constructor
  · obtain ⟨e3, e2, e1, eq, el⟩ := early_rules_none
      (hmem '#' "**".toList p1 t1 q1 (by decide)) (hmem '>' "**".toList p2 t2 q2 (by decide))
      (hmem '-' "**".toList p3 t3 q3 (by decide))
    have eb := msc_text_bold p4 t4 q4
    rw [if_pos ⟨hpos, by omega⟩] at eb
    have := match_md_text_bold md_regexes_create _ doc e3 e2 e1 eq el eb
    rw [hcopy] at this
    exact this
  · obtain ⟨e3, e2, e1, eq, el⟩ := early_rules_none
      (hmem '#' "*".toList p1 t1 q1 (by decide)) (hmem '>' "*".toList p2 t2 q2 (by decide))
      (hmem '-' "*".toList p3 t3 q3 (by decide))
    have hcount : (pre ++ ("*".toList ++ (t ++ ("*".toList ++ post)))).count '*' = 2 := by
      simp only [List.count_append, List.count_eq_zero.mpr p4, List.count_eq_zero.mpr t4,
        List.count_eq_zero.mpr q4]
      rfl
    have eb : match_single_capture md_regexes_create.text_bold
        (pre ++ ("*".toList ++ (t ++ ("*".toList ++ post)))) MAX_CAPTURE_SIZE = none :=
      msc_text_bold_none (by omega) _
    have ei := msc_text_italics p4 t4 q4
    rw [if_pos ⟨hpos, by omega⟩] at ei
    have := match_md_text_italics md_regexes_create _ doc e3 e2 e1 eq el eb ei
    rw [hcopy] at this
    exact this

/-- Witness for C9: `a **bold** b` is the bold text `bold` and `a *it* b` the italic
text `it`. -/
theorem emphasis_with_surrounding_text_witness :
    noSpecial "a ".toList = true ∧ noSpecial "bold".toList = true ∧
      noSpecial " b".toList = true ∧ "bold".toList ≠ [] ∧ "bold".toList.length ≤ 1022 ∧
      match_md md_regexes_create
          ("a ".toList ++ ("**".toList ++ ("bold".toList ++ ("**".toList ++ " b".toList)))) [] =
        [⟨.MD_TYPE_TEXT_BOLD, "bold".toList⟩] ∧
      match_md md_regexes_create
          ("a ".toList ++ ("*".toList ++ ("bold".toList ++ ("*".toList ++ " b".toList)))) [] =
        [⟨.MD_TYPE_TEXT_ITALICS, "bold".toList⟩] :=
  ⟨by decide, by decide, by decide, by decide, by decide,
    emphasis_with_surrounding_text "a ".toList "bold".toList " b".toList
      (by decide) (by decide) (by decide) (by decide) (by decide) []⟩

/-- C9 as stated fails: with the 1023-byte text of `a` between the delimiters the
emphasis rules do not apply (the capture is not shorter than 1023 bytes): the line
`*a…a*` becomes plain text cut to 1024 bytes, and the line `**a…a**` is not classified
TextBold. -/
theorem emphasis_capture_too_long :
    noSpecial (List.replicate 1023 'a') = true ∧ List.replicate 1023 'a' ≠ [] ∧
      match_md md_regexes_create
          ([] ++ ("*".toList ++ (List.replicate 1023 'a' ++ ("*".toList ++ [])))) [] =
        [⟨.MD_TYPE_TEXT, "*".toList ++ List.replicate 1023 'a'⟩] ∧
      lastType (match_md md_regexes_create
          ([] ++ ("**".toList ++ (List.replicate 1023 'a' ++ ("**".toList ++ [])))) []) ≠
        some .MD_TYPE_TEXT_BOLD := by
  have ha : ∀ c : Char, c ≠ 'a' → c ∉ List.replicate 1023 'a' := fun c h =>
    not_mem_replicate_of_ne h _
  have hmem : ∀ (c : Char) (d : List Char), c ≠ 'a' → c ∉ d →
      c ∉ [] ++ (d ++ (List.replicate 1023 'a' ++ (d ++ []))) := by
    intro c d h1 h2 hm
    simp only [List.mem_append, List.not_mem_nil, false_or, or_false] at hm
    rcases hm with hm | hm | hm
    · exact h2 hm
    · exact ha c h1 hm
    · exact h2 hm
  have hlen : ¬ (0 < (List.replicate 1023 'a').length ∧ (List.replicate 1023 'a').length < 1023) := by
    rw [List.length_replicate]; decide
  refine ⟨noSpecial_iff.mpr ⟨ha _ (by decide), ha _ (by decide), ha _ (by decide),
    ha _ (by decide)⟩, by decide, ?_, ?_⟩
  · obtain ⟨e3, e2, e1, eq, el⟩ := early_rules_none
      (hmem '#' "*".toList (by decide) (by decide)) (hmem '>' "*".toList (by decide) (by decide))
      (hmem '-' "*".toList (by decide) (by decide))
    have hcount : ([] ++ ("*".toList ++ (List.replicate 1023 'a' ++ ("*".toList ++ [])))).count '*'
        = 2 := by
      simp only [List.count_append, List.count_eq_zero.mpr (ha '*' (by decide))]
      rfl
    have eb : match_single_capture md_regexes_create.text_bold
        ([] ++ ("*".toList ++ (List.replicate 1023 'a' ++ ("*".toList ++ [])))) MAX_CAPTURE_SIZE
        = none := msc_text_bold_none (by omega) _
    have ei := msc_text_italics (a := []) (t := List.replicate 1023 'a') (z := [])
      (by simp) (ha _ (by decide)) (by simp)
    rw [if_neg hlen] at ei
    have h := match_md_text md_regexes_create _ [] e3 e2 e1 eq el eb ei
    have hcut := strncpy_run "*".toList "*".toList 'a' 1023 (by decide) (by decide)
    exact h.trans (congrArg (fun c => [MdNode.mk .MD_TYPE_TEXT c]) hcut)
  · obtain ⟨e3, e2, e1, eq, el⟩ := early_rules_none
      (hmem '#' "**".toList (by decide) (by decide))
      (hmem '>' "**".toList (by decide) (by decide))
      (hmem '-' "**".toList (by decide) (by decide))
    have eb := msc_text_bold (a := []) (t := List.replicate 1023 'a') (z := [])
      (by simp) (ha _ (by decide)) (by simp)
    rw [if_neg hlen] at eb
    rw [lastType_match_md, e3, e2, e1, eq, el]
    have eb' : match_single_capture md_regexes_create.text_bold
        ([] ++ ("**".toList ++ (List.replicate 1023 'a' ++ ("**".toList ++ [])))) MAX_CAPTURE_SIZE
        = none := eb
    rw [eb']
    simp only [Option.isSome_none, Bool.false_eq_true, if_false]
    split_ifs <;> simp

/-- C10. The emphasis capture is not the shortest span: on `**a** and **b**` the bold
rule captures everything between the first and the last `**`, and on `*a* and *b*` the
italic rule captures everything between the first and the last `*`, where the claim
expects the payload `a`. -/
theorem emphasis_capture_is_longest :
    match_md md_regexes_create "**a** and **b**".toList [] =
        [⟨.MD_TYPE_TEXT_BOLD, "a** and **b".toList⟩] ∧
      match_md md_regexes_create "*a* and *b*".toList [] =
        [⟨.MD_TYPE_TEXT_ITALICS, "a* and *b".toList⟩] := by
  decide

/-! ## The read loop -/

theorem fgets_read_append (n : Nat) (s : List Char) :
    (fgets_read n s).1 ++ (fgets_read n s).2 = s := by
  induction n generalizing s with
  | zero => simp [fgets_read]
  | succ n ih =>
    cases s with
    | nil => simp [fgets_read]
    | cons c s =>
      simp only [fgets_read]
      split
      · simp
      · simp [ih s]

theorem fgets_read_ne_nil (n : Nat) (c : Char) (s : List Char) :
    (fgets_read (n + 1) (c :: s)).1 ≠ [] := by
  simp only [fgets_read]
  split <;> simp

/-- A call of `fgets` that meets a newline within the buffer stores the line with its
newline. -/
theorem fgets_read_line {a : List Char} (n : Nat) (rest : List Char) (ha : '\n' ∉ a)
    (hn : a.length < n) : fgets_read n (a ++ '\n' :: rest) = (a ++ ['\n'], rest) := by
  induction a generalizing n with
  | nil =>
    obtain ⟨m, rfl⟩ : ∃ m, n = m + 1 := ⟨n - 1, by simp at hn; omega⟩
    simp [fgets_read]
  | cons c a ih =>
    obtain ⟨m, rfl⟩ : ∃ m, n = m + 1 := ⟨n - 1, by simp at hn; omega⟩
    have hc : c ≠ '\n' := fun h => ha (by simp [h])
    have ha' : '\n' ∉ a := fun h => ha (List.mem_cons_of_mem _ h)
    rw [List.cons_append, fgets_read, if_neg hc, ih m ha' (by simp at hn; omega)]
    rfl

/-- A call of `fgets` that fills the buffer before any newline stores the bytes that
fit and leaves the rest in the stream. -/
theorem fgets_read_cut {a : List Char} (n : Nat) (rest : List Char) (ha : '\n' ∉ a)
    (hn : a.length = n) : fgets_read n (a ++ rest) = (a, rest) := by
  induction a generalizing n with
  | nil =>
    simp only [List.length_nil] at hn
    subst hn
    simp [fgets_read]
  | cons c a ih =>
    obtain ⟨m, rfl⟩ : ∃ m, n = m + 1 := ⟨n - 1, by simp at hn; omega⟩
    have hc : c ≠ '\n' := fun h => ha (by simp [h])
    have ha' : '\n' ∉ a := fun h => ha (List.mem_cons_of_mem _ h)
    rw [List.cons_append, fgets_read, if_neg hc, ih m ha' (by simp at hn; omega)]

/-- A call of `fgets` that reaches the end of the stream stores what was left. -/
theorem fgets_read_eof {a : List Char} (n : Nat) (ha : '\n' ∉ a) (hn : a.length ≤ n) :
    fgets_read n a = (a, []) := by
  induction a generalizing n with
  | nil => cases n <;> simp [fgets_read]
  | cons c a ih =>
    obtain ⟨m, rfl⟩ : ∃ m, n = m + 1 := ⟨n - 1, by simp at hn; omega⟩
    have hc : c ≠ '\n' := fun h => ha (by simp [h])
    have ha' : '\n' ∉ a := fun h => ha (List.mem_cons_of_mem _ h)
    rw [fgets_read, if_neg hc, ih m ha' (by simp at hn; omega)]

theorem stripped_eq_takeWhile (l : List Char) :
    stripped l = l.takeWhile fun c => c != '\x00' && !(List.contains ['\r', '\n'] c) := by
  simp only [stripped, strcspn]
  induction l with
  | nil => rfl
  | cons c l ih =>
    simp only [List.takeWhile_cons]
    split
    · simp only [List.length_cons, List.take_succ_cons, ih]
    · simp

theorem stripped_nil : stripped [] = [] := rfl

/-- Cutting at the first `\r`, `\n` or NUL ignores everything from a terminator on. -/
theorem stripped_append_terminator (l : List Char) (c : Char) (z : List Char)
    (hc : c = '\r' ∨ c = '\n') : stripped (l ++ c :: z) = stripped l := by
  simp only [stripped_eq_takeWhile]
  induction l with
  | nil => rcases hc with rfl | rfl <;> rfl
  | cons x l ih =>
    simp only [List.cons_append, List.takeWhile_cons]
    split
    · rw [ih]
    · rfl

/-- A text without NUL, `\r` and `\n` is handed over unchanged. -/
theorem stripped_of_not_mem {l : List Char} (h0 : '\x00' ∉ l) (h1 : '\r' ∉ l)
    (h2 : '\n' ∉ l) : stripped l = l := by
  rw [stripped_eq_takeWhile, List.takeWhile_eq_self_iff]
  intro c hc
  have hz : c ≠ '\x00' := fun h => h0 (h ▸ hc)
  have hr : c ≠ '\r' := fun h => h1 (h ▸ hc)
  have hn : c ≠ '\n' := fun h => h2 (h ▸ hc)
  simp [hz, hr, hn]

theorem stripped_length_le (l : List Char) : (stripped l).length ≤ l.length := by
  simp only [stripped, List.length_take]
  omega

/-- One round of the loop, written with the buffer that `fgets` returned. -/
theorem read_loop_step (r : MdRegexes) (fuel : Nat) (c : Char) (s : List Char)
    (doc : List MdNode) :
    read_loop r (fuel + 1) (c :: s) doc =
      read_loop r fuel (fgets_read 1023 (c :: s)).2
        (if stripped (fgets_read 1023 (c :: s)).1 ≠ [] then
          match_md r (stripped (fgets_read 1023 (c :: s)).1) doc else doc) := by
  simp only [read_loop, fgets, MAX_LINE_SIZE, stripped]
  split <;> rfl

theorem read_loop_nil (r : MdRegexes) (fuel : Nat) (doc : List MdNode) :
    read_loop r (fuel + 1) [] doc = some doc := rfl

/-- The result of the loop does not depend on the bound once it exceeds the number of
bytes of the stream. -/
theorem read_loop_fuel (r : MdRegexes) (f1 f2 : Nat) (s : List Char) (doc : List MdNode)
    (h1 : s.length < f1) (h2 : s.length < f2) : read_loop r f1 s doc = read_loop r f2 s doc := by
  induction f1 generalizing f2 s doc with
  | zero => omega
  | succ k ih =>
    obtain ⟨m, rfl⟩ : ∃ m, f2 = m + 1 := ⟨f2 - 1, by omega⟩
    cases s with
    | nil => rfl
    | cons c s =>
      rw [read_loop_step, read_loop_step]
      have hlen := congrArg List.length (fgets_read_append 1023 (c :: s))
      have hne := fgets_read_ne_nil 1022 c s
      have hpos : 0 < (fgets_read 1023 (c :: s)).1.length := List.length_pos.mpr hne
      simp only [List.length_append] at hlen
      exact ih m _ _ (by omega) (by omega)

/-- The loop terminates: with more rounds than the stream has bytes it returns a
document. -/
theorem read_loop_isSome (r : MdRegexes) (f : Nat) (s : List Char) (doc : List MdNode)
    (h : s.length < f) : ∃ d, read_loop r f s doc = some d := by
  induction f generalizing s doc with
  | zero => omega
  | succ k ih =>
    cases s with
    | nil => exact ⟨doc, rfl⟩
    | cons c s =>
      rw [read_loop_step]
      have hlen := congrArg List.length (fgets_read_append 1023 (c :: s))
      have hne := fgets_read_ne_nil 1022 c s
      have hpos : 0 < (fgets_read 1023 (c :: s)).1.length := List.length_pos.mpr hne
      simp only [List.length_append] at hlen
      exact ih _ _ (by omega)

/-- One round of the loop once the outcome of `fgets` is known; the remaining rounds
are counted from the rest of the stream. -/
theorem read_loop_of_fgets (r : MdRegexes) {s chunk rest : List Char} (f : Nat)
    (doc : List MdNode) (hs : s ≠ []) (hf : fgets_read 1023 s = (chunk, rest))
    (hlen : s.length < f) :
    read_loop r f s doc =
      read_loop r (rest.length + 1) rest
        (if stripped chunk ≠ [] then match_md r (stripped chunk) doc else doc) := by
  obtain ⟨k, rfl⟩ : ∃ k, f = k + 1 := ⟨f - 1, by omega⟩
  cases s with
  | nil => exact absurd rfl hs
  | cons c s =>
    have happ := congrArg List.length (fgets_read_append 1023 (c :: s))
    have hne := fgets_read_ne_nil 1022 c s
    rw [read_loop_step, hf]
    rw [hf] at happ hne
    dsimp only at happ hne ⊢
    have hpos : 0 < chunk.length := List.length_pos.mpr hne
    simp only [List.length_append] at happ
    exact read_loop_fuel r _ _ _ _ (by omega) (by omega)

/-- A round that fills the buffer before the end of the line: the 1023 bytes are
handed over and the rest of the line stays in the stream. -/
theorem read_chunk_cut (r : MdRegexes) {a : List Char} (rest : List Char) (f : Nat)
    (doc : List MdNode) (ha : '\n' ∉ a) (hlen : a.length = 1023)
    (hf : (a ++ rest).length < f) :
    read_loop r f (a ++ rest) doc =
      read_loop r (rest.length + 1) rest
        (if stripped a ≠ [] then match_md r (stripped a) doc else doc) :=
  read_loop_of_fgets r f doc
    (by
      intro h
      have := congrArg List.length h
      rw [List.length_append, hlen] at this
      simp at this)
    (fgets_read_cut 1023 rest ha hlen) hf

/-- A round that reads a line with its newline. -/
theorem read_chunk_line (r : MdRegexes) {a : List Char} (rest : List Char) (f : Nat)
    (doc : List MdNode) (ha : '\n' ∉ a) (hlen : a.length ≤ 1022)
    (hf : (a ++ '\n' :: rest).length < f) :
    read_loop r f (a ++ '\n' :: rest) doc =
      read_loop r (rest.length + 1) rest
        (if stripped a ≠ [] then match_md r (stripped a) doc else doc) := by
  have h := read_loop_of_fgets r f doc (by simp) (fgets_read_line 1023 rest ha (by omega)) hf
  rw [stripped_append_terminator a '\n' [] (Or.inr rfl)] at h
  exact h

/-- A round that reads the last line of a file that does not end with a newline. -/
theorem read_chunk_eof (r : MdRegexes) {a : List Char} (f : Nat) (doc : List MdNode)
    (ha : '\n' ∉ a) (hlen : a.length ≤ 1023) (hf : a.length < f) :
    read_loop r f a doc = some (if stripped a ≠ [] then match_md r (stripped a) doc else doc) := by
  cases a with
  | nil =>
    obtain ⟨k, rfl⟩ : ∃ k, f = k + 1 := ⟨f - 1, by omega⟩
    simp [read_loop_nil, stripped_nil]
  | cons c a =>
    rw [read_loop_of_fgets r f doc (by simp) (fgets_read_eof 1023 ha hlen) hf]
    rfl

/-- The rounds spent on one line of at most 1023 bytes and its terminator: the line,
cut at its first `\r`, is handed to `match_md` when it is non-empty, and nothing else
is added. -/
theorem read_line (r : MdRegexes) {l : List Char} (crlf : Bool) (rest : List Char) (f : Nat)
    (doc : List MdNode) (hl : '\n' ∉ l) (hlen : l.length ≤ 1023)
    (hf : (l ++ (terminator crlf ++ rest)).length < f) :
    read_loop r f (l ++ (terminator crlf ++ rest)) doc =
      read_loop r (rest.length + 1) rest
        (if stripped l ≠ [] then match_md r (stripped l) doc else doc) := by
  have hskip : ∀ d : List MdNode, read_loop r (('\n' :: rest).length + 1) ('\n' :: rest) d =
      read_loop r (rest.length + 1) rest d := by
    intro d
    have := read_chunk_line r (a := []) rest (('\n' :: rest).length + 1) d (by simp) (by simp)
      (by simp)
    simpa [stripped_nil] using this
  cases crlf with
  | false =>
    simp only [terminator, Bool.false_eq_true, if_false, List.cons_append, List.nil_append] at hf ⊢
    by_cases h : l.length ≤ 1022
    · exact read_chunk_line r rest f doc hl h hf
    · rw [read_chunk_cut r ('\n' :: rest) f doc hl (by omega) hf, hskip]
  | true =>
    simp only [terminator, if_true, List.cons_append, List.nil_append] at hf ⊢
    have hl' : '\n' ∉ l ++ ['\r'] := by
      intro h
      rcases List.mem_append.mp h with h | h
      · exact hl h
      · simp at h
    have hs : stripped (l ++ ['\r']) = stripped l :=
      stripped_append_terminator l '\r' [] (Or.inl rfl)
    have hassoc : ∀ z : List Char, l ++ '\r' :: z = (l ++ ['\r']) ++ z := by simp
    by_cases h1 : l.length ≤ 1021
    · rw [hassoc] at hf ⊢
      rw [read_chunk_line r rest f doc hl' (by simp; omega) hf, hs]
    · by_cases h2 : l.length = 1022
      · rw [hassoc] at hf ⊢
        rw [read_chunk_cut r ('\n' :: rest) f doc hl' (by simp; omega) hf, hs, hskip]
      · rw [read_chunk_cut r ('\r' :: '\n' :: rest) f doc hl (by omega) hf]
        have := read_chunk_line r (a := ['\r']) rest (('\r' :: '\n' :: rest).length + 1)
          (if stripped l ≠ [] then match_md r (stripped l) doc else doc) (by decide)
          (by simp) (by simp)
        rw [show stripped ['\r'] = [] from rfl] at this
        simpa using this

theorem match_md_doc (r : MdRegexes) (s : List Char) (doc : List MdNode) :
    match_md r s doc = doc ++ match_md r s [] := by
  unfold match_md
  cases match_single_capture r.heading_3 s MAX_CAPTURE_SIZE <;>
  cases match_single_capture r.heading_2 s MAX_CAPTURE_SIZE <;>
  cases match_single_capture r.heading_1 s MAX_CAPTURE_SIZE <;>
  cases match_single_capture r.block_quote s MAX_CAPTURE_SIZE <;>
  cases match_no_capture r.line s <;>
  cases match_single_capture r.text_bold s MAX_CAPTURE_SIZE <;>
  cases match_single_capture r.text_italics s MAX_CAPTURE_SIZE <;>
  simp [md_list_append_eq]

/-- The node added for a line, as a list: empty for a blank line. -/
theorem line_nodes (r : MdRegexes) (l : List Char) (doc : List MdNode) :
    (if stripped l ≠ [] then match_md r (stripped l) doc else doc) =
      doc ++ ((([l].map stripped).filter fun x => !x.isEmpty).flatMap fun x => match_md r x []) := by
  by_cases h : stripped l = []
  · simp [h]
  · have hne : (stripped l).isEmpty = false := by
      cases hs : stripped l with
      | nil => exact absurd hs h
      | cons _ _ => rfl
    simp [h, hne, match_md_doc r (stripped l) doc]

/-- The document the loop builds from a file of lines of at most 1023 bytes. -/
theorem read_loop_inputFile (r : MdRegexes) (lines : List (List Char × Bool)) (last : List Char)
    (hlf : ∀ l ∈ lines, '\n' ∉ l.1) (hlen : ∀ l ∈ lines, l.1.length ≤ 1023)
    (hlast : '\n' ∉ last) (hlastlen : last.length ≤ 1023) (f : Nat) (doc : List MdNode)
    (hf : (inputFile lines last).length < f) :
    read_loop r f (inputFile lines last) doc =
      some (doc ++ ((((lines.map Prod.fst ++ [last]).map stripped).filter fun x => !x.isEmpty).flatMap
        fun x => match_md r x [])) := by
  induction lines generalizing f doc with
  | nil =>
    simp only [inputFile, List.flatMap_nil, List.nil_append, List.map_nil] at hf ⊢
    rw [read_chunk_eof r f doc hlast hlastlen hf, line_nodes]
  | cons p lines ih =>
    have hfile : inputFile (p :: lines) last =
        p.1 ++ (terminator p.2 ++ inputFile lines last) := by
      simp [inputFile]
    rw [hfile] at hf ⊢
    rw [read_line r p.2 _ f doc (hlf p (List.mem_cons_self _ _)) (hlen p (List.mem_cons_self _ _)) hf,
      ih (fun l hl => hlf l (List.mem_cons_of_mem _ hl))
        (fun l hl => hlen l (List.mem_cons_of_mem _ hl)) _ _ (Nat.lt_succ_self _),
      line_nodes]
    cases h : (stripped p.1).isEmpty <;>
      simp [List.filter_cons, h, List.filter_append, List.append_assoc]

theorem write_md_to_html_eq (out : List Char) (doc : List MdNode) :
    write_md_to_html out doc = out ++ doc.flatMap fun node => md_node_to_html node MAX_LINE_SIZE := by
  induction doc generalizing out with
  | nil => simp [write_md_to_html]
  | cons n doc ih => simp [write_md_to_html, ih, List.append_assoc]

theorem flatMap_lineHtml (ls : List (List Char)) :
    (ls.flatMap fun l => match_md md_regexes_create l []).flatMap
        (fun node => md_node_to_html node MAX_LINE_SIZE) = ls.flatMap lineHtml := by
  induction ls with
  | nil => rfl
  | cons l ls ih => simp [List.flatMap_cons, List.flatMap_append, ih, lineHtml]

theorem map_stripped_of_not_mem (ls : List (List Char))
    (h : ∀ l ∈ ls, '\x00' ∉ l ∧ '\r' ∉ l ∧ '\n' ∉ l) : ls.map stripped = ls := by
  induction ls with
  | nil => rfl
  | cons l ls ih =>
    rw [List.map_cons, stripped_of_not_mem (h l (List.mem_cons_self _ _)).1
      (h l (List.mem_cons_self _ _)).2.1 (h l (List.mem_cons_self _ _)).2.2,
      ih fun x hx => h x (List.mem_cons_of_mem _ hx)]

/-- C11. End-to-end pipeline: for every sequence of input lines of at most 1022 bytes,
each followed by `\n` or `\r\n` (the last line may lack a terminator), the read loop
builds the document of the nodes of the lines that are non-empty after the terminator
is stripped, in input order, and `main` writes the concatenation of their fragments
with no separators; blank lines give no node and no output.  The line handed to
`match_md` is the line cut at its first `\r` or NUL byte, which is the line itself when
it contains neither. -/
theorem end_to_end (lines : List (List Char × Bool)) (last : List Char)
    (hlines : ∀ l ∈ lines, '\n' ∉ l.1 ∧ l.1.length ≤ 1022)
    (hlast : '\n' ∉ last ∧ last.length ≤ 1022) :
    read_loop md_regexes_create ((inputFile lines last).length + 1) (inputFile lines last) [] =
        some ((((lines.map Prod.fst ++ [last]).map stripped).filter fun l => !l.isEmpty).flatMap
          fun l => match_md md_regexes_create l []) ∧
      main (inputFile lines last) =
        some ((((lines.map Prod.fst ++ [last]).map stripped).filter
          fun l => !l.isEmpty).flatMap lineHtml) ∧
      ((∀ l ∈ lines, '\x00' ∉ l.1 ∧ '\r' ∉ l.1) → '\x00' ∉ last ∧ '\r' ∉ last →
        main (inputFile lines last) =
          some (((lines.map Prod.fst ++ [last]).filter fun l => !l.isEmpty).flatMap lineHtml)) := by
  have hdoc := read_loop_inputFile md_regexes_create lines last (fun l hl => (hlines l hl).1)
    (fun l hl => Nat.le_succ_of_le (hlines l hl).2) hlast.1 (Nat.le_succ_of_le hlast.2)
    ((inputFile lines last).length + 1) [] (Nat.lt_succ_self _)
  rw [List.nil_append] at hdoc
  have hmain : main (inputFile lines last) =
      some ((((lines.map Prod.fst ++ [last]).map stripped).filter
        fun l => !l.isEmpty).flatMap lineHtml) := by
    simp only [main, hdoc, Option.map_some', write_md_to_html_eq, List.nil_append,
      flatMap_lineHtml]
  refine ⟨hdoc, hmain, fun hcr hcrlast => ?_⟩
  rw [hmain, map_stripped_of_not_mem]
  intro l hl
  rcases List.mem_append.mp hl with hl | hl
  · obtain ⟨p, hp, rfl⟩ := List.mem_map.mp hl
    exact ⟨(hcr p hp).1, (hcr p hp).2, (hlines p hp).1⟩
  · rw [List.mem_singleton] at hl
    subst hl
    exact ⟨hcrlast.1, hcrlast.2, hlast.1⟩

/-- Witness for C11: the lines `# Title`, the empty line, `plain line`, `> note` and
`---` give four nodes and the four fragments in order. -/
theorem end_to_end_witness :
    (read_loop md_regexes_create
        ((inputFile [("# Title".toList, false), ("".toList, false),
            ("plain line".toList, false), ("> note".toList, false)] "---".toList).length + 1)
        (inputFile [("# Title".toList, false), ("".toList, false),
            ("plain line".toList, false), ("> note".toList, false)] "---".toList) []).map
          List.length = some 4 ∧
      main (inputFile [("# Title".toList, false), ("".toList, false),
          ("plain line".toList, false), ("> note".toList, false)] "---".toList) =
        some "<h1>Title</h1>\nplain line<br />\n<blockquote>note</blockquote>\n<hr />\n".toList :=
  ⟨by decide,
    ((end_to_end [("# Title".toList, false), ("".toList, false),
        ("plain line".toList, false), ("> note".toList, false)] "---".toList
      (by decide) (by decide)).2.2 (by decide) (by decide)).trans (by decide)⟩

/-- The buffer is read back as a C string: of the line `ab`, NUL, `cd` only `ab` is
classified, and a line that starts with a NUL byte is dropped as blank. -/
theorem main_nul_cut :
    main ['a', 'b', '\x00', 'c', 'd', '\n'] = some "ab<br />\n".toList ∧
      main ['\x00', 'x', '\n', 'y', '\n'] = some "y<br />\n".toList := by
  decide

/-- The raw line `t` alone, with `\n` or with `\r\n` gives the node of `t`, and no
node when `t` is empty. -/
theorem read_raw_line (t : List Char) (hnul : '\x00' ∉ t) (hcr : '\r' ∉ t) (hlf : '\n' ∉ t)
    (hlen : t.length ≤ 1023) (doc : List MdNode) :
    ∀ raw ∈ [t, t ++ ['\n'], t ++ ['\r', '\n']],
      read_loop md_regexes_create (raw.length + 1) raw doc =
        some (if t ≠ [] then match_md md_regexes_create t doc else doc) := by
  have hs : stripped t = t := stripped_of_not_mem hnul hcr hlf
  intro raw hraw
  simp only [List.mem_cons, List.mem_singleton, List.not_mem_nil, or_false] at hraw
  rcases hraw with rfl | rfl | rfl
  · rw [read_chunk_eof md_regexes_create _ doc hlf hlen (Nat.lt_succ_self _), hs]
  · have := read_line md_regexes_create false [] ((t ++ ['\n']).length + 1) doc hlf hlen
      (by simp [terminator])
    simp only [terminator, Bool.false_eq_true, if_false, List.append_nil, hs] at this
    rw [this]
    rfl
  · have := read_line md_regexes_create true [] ((t ++ ['\r', '\n']).length + 1) doc hlf hlen
      (by simp [terminator])
    simp only [terminator, if_true, List.append_nil, hs] at this
    rw [this]
    rfl

/-- C12 (amended). Line terminators are stripped before classification: for every
text `t` of at most 1023 bytes containing no CR, LF or NUL character, the raw lines `t`,
`t` with `\n` and `t` with `\r\n` are all handed to `match_md` as exactly `t` and
produce the same node when `t` is non-empty; the raw lines made of nothing, `\n` and
`\r\n` produce no node. -/
theorem terminators_stripped (t : List Char) (hnul : '\x00' ∉ t) (hcr : '\r' ∉ t)
    (hlf : '\n' ∉ t) (hlen : t.length ≤ 1023) (doc : List MdNode) :
    (t ≠ [] → ∀ raw ∈ [t, t ++ ['\n'], t ++ ['\r', '\n']],
      read_loop md_regexes_create (raw.length + 1) raw doc =
        some (match_md md_regexes_create t doc)) ∧
    (∀ raw ∈ [[], ['\n'], ['\r', '\n']],
      read_loop md_regexes_create (raw.length + 1) raw doc = some doc) := by
  constructor
  · intro hne raw hraw
    rw [read_raw_line t hnul hcr hlf hlen doc raw hraw, if_pos hne]
  · intro raw hraw
    have := read_raw_line [] (by simp) (by simp) (by simp) (by simp) doc raw
      (by simpa using hraw)
    simpa using this

/-- Witness for C12: the raw lines `# Title`, `# Title\n` and `# Title\r\n`. -/
theorem terminators_stripped_witness :
    '\x00' ∉ "# Title".toList ∧ '\r' ∉ "# Title".toList ∧ '\n' ∉ "# Title".toList ∧
      "# Title".toList.length ≤ 1023 ∧
      ∀ raw ∈ ["# Title".toList, "# Title".toList ++ ['\n'], "# Title".toList ++ ['\r', '\n']],
        read_loop md_regexes_create (raw.length + 1) raw [] =
          some (match_md md_regexes_create "# Title".toList []) :=
  ⟨by decide, by decide, by decide, by decide,
    (terminators_stripped "# Title".toList (by decide) (by decide) (by decide) (by decide)
      []).1 (by decide)⟩

/-- The loop on a run of 1024 equal plain characters, with any terminator-free rest:
the first 1023 bytes become one node and the last byte another. -/
theorem read_loop_run_1024 (c : Char) (h1 : c ≠ '#') (h2 : c ≠ '>') (h3 : c ≠ '-')
    (h4 : c ≠ '*') (h5 : c ≠ '\r') (h6 : c ≠ '\n') (h7 : c ≠ '\x00') (tail : List Char)
    (htail : tail = [] ∨ tail = ['\n']) :
    read_loop md_regexes_create ((List.replicate 1023 c ++ (c :: tail)).length + 1)
        (List.replicate 1023 c ++ (c :: tail)) [] =
      some [⟨.MD_TYPE_TEXT, List.replicate 1023 c⟩, ⟨.MD_TYPE_TEXT, [c]⟩] := by
  have hm : ∀ d : Char, d ≠ c → d ∉ List.replicate 1023 c := fun d hd =>
    not_mem_replicate_of_ne hd _
  have hs : stripped (List.replicate 1023 c) = List.replicate 1023 c :=
    stripped_of_not_mem (hm _ (Ne.symm h7)) (hm _ (Ne.symm h5)) (hm _ (Ne.symm h6))
  have hne : List.replicate 1023 c ≠ [] := by
    intro h
    have := congrArg List.length h
    rw [List.length_replicate] at this
    exact absurd this (by decide)
  have hs1 : stripped [c] = [c] :=
    stripped_of_not_mem (by simp [Ne.symm h7]) (by simp [Ne.symm h5]) (by simp [Ne.symm h6])
  have hn1 : ∀ d : Char, d ≠ c → d ∉ [c] := fun d hd => by simpa using hd
  rw [read_chunk_cut md_regexes_create (c :: tail) _ [] (hm _ (Ne.symm h6))
    (List.length_replicate _ _) (Nat.lt_succ_self _), hs, if_pos hne,
    match_md_plain (hm _ (Ne.symm h1)) (hm _ (Ne.symm h2)) (hm _ (Ne.symm h3)) (hm _ (Ne.symm h4)),
    strncpy_of_le (by rw [List.length_replicate]; decide)]
  rcases htail with rfl | rfl
  · rw [read_chunk_eof md_regexes_create _ _ (hn1 _ (Ne.symm h6)) (by simp) (by simp), hs1,
      if_pos (by simp),
      match_md_plain (hn1 _ (Ne.symm h1)) (hn1 _ (Ne.symm h2)) (hn1 _ (Ne.symm h3))
        (hn1 _ (Ne.symm h4)), strncpy_of_le (by simp [MAX_LINE_SIZE])]
    rfl
  · have := read_chunk_line md_regexes_create (a := [c]) [] (([c] ++ ['\n']).length + 1)
      ([] ++ [⟨.MD_TYPE_TEXT, List.replicate 1023 c⟩]) (hn1 _ (Ne.symm h6)) (by simp) (by simp)
    rw [hs1, if_pos (by simp),
      match_md_plain (hn1 _ (Ne.symm h1)) (hn1 _ (Ne.symm h2)) (hn1 _ (Ne.symm h3))
        (hn1 _ (Ne.symm h4)), strncpy_of_le (by simp [MAX_LINE_SIZE])] at this
    exact this

/-- C12 as stated fails: the raw line of 1024 `a` is not handed to `match_md` as a
whole; the loop hands over its first 1023 bytes and then its last byte, and builds
two nodes where `match_md` on the whole text builds one.  A raw line that starts with
a NUL byte has no CR or LF either, and is dropped as blank. -/
theorem terminators_long_line_split :
    '\r' ∉ List.replicate 1023 'a' ++ ['a'] ∧ '\n' ∉ List.replicate 1023 'a' ++ ['a'] ∧
      read_loop md_regexes_create ((List.replicate 1023 'a' ++ ['a']).length + 1)
          (List.replicate 1023 'a' ++ ['a']) [] =
        some [⟨.MD_TYPE_TEXT, List.replicate 1023 'a'⟩, ⟨.MD_TYPE_TEXT, ['a']⟩] ∧
      read_loop md_regexes_create ((List.replicate 1023 'a' ++ ['a']).length + 1)
          (List.replicate 1023 'a' ++ ['a']) [] ≠
        some (match_md md_regexes_create (List.replicate 1023 'a' ++ ['a']) []) ∧
      read_loop md_regexes_create 3 ['\x00', 'x'] [] = some [] := by
  have hmem : ∀ d : Char, d ≠ 'a' → d ∉ List.replicate 1023 'a' ++ ['a'] := by
    intro d hd h
    rcases List.mem_append.mp h with h | h
    · exact hd (List.eq_of_mem_replicate h)
    · exact hd (by simpa using h)
  have hrun := read_loop_run_1024 'a' (by decide) (by decide) (by decide) (by decide)
    (by decide) (by decide) (by decide) [] (Or.inl rfl)
  refine ⟨hmem _ (by decide), hmem _ (by decide), hrun, ?_, by decide⟩
  rw [hrun]
  obtain ⟨node, hnode⟩ := match_md_append md_regexes_create (List.replicate 1023 'a' ++ ['a']) []
  rw [hnode]
  intro h
  have := congrArg (Option.map List.length) h
  simp only [Option.map_some', List.length_cons, List.length_nil, List.nil_append,
    List.length_singleton, Option.some.injEq] at this
  omega

/-- C13. The document is append-only and order-preserving: `match_md` leaves every
existing node unchanged and in place and adds exactly one node at the tail, the node
it gives the line on an empty document; so after the lines `l1..ln` the document is
the list of their nodes in input order. -/
theorem document_append_only (r : MdRegexes) (D : List MdNode) (L : List Char)
    (lines : List (List Char)) :
    (∃ node, match_md r L D = D ++ [node] ∧ match_md r L [] = [node]) ∧
      lines.foldl (fun doc l => match_md r l doc) D =
        D ++ lines.flatMap (fun l => match_md r l []) ∧
      (lines.foldl (fun doc l => match_md r l doc) D).length = D.length + lines.length := by
  have hfold : ∀ (ls : List (List Char)) (doc : List MdNode),
      ls.foldl (fun doc l => match_md r l doc) doc =
        doc ++ ls.flatMap (fun l => match_md r l []) := by
    intro ls
    induction ls with
    | nil => intro doc; simp
    | cons l ls ih =>
      intro doc
      rw [List.foldl_cons, ih, match_md_doc r l doc, List.flatMap_cons, List.append_assoc]
  have hlen : ∀ ls : List (List Char), (ls.flatMap (fun l => match_md r l [])).length = ls.length := by
    intro ls
    induction ls with
    | nil => rfl
    | cons l ls ih =>
      obtain ⟨node, hnode⟩ := match_md_append r l []
      rw [List.flatMap_cons, List.length_append, ih, hnode]
      simp
      omega
  refine ⟨?_, hfold lines D, ?_⟩
  · obtain ⟨node, hnode⟩ := match_md_append r L []
    rw [List.nil_append] at hnode
    exact ⟨node, by rw [match_md_doc r L D, hnode], hnode⟩
  · rw [hfold, List.length_append, hlen]

/-- C14 (amended). An input line of more than 1023 bytes is not cut to one node: the
read loop hands its leading 1023 bytes (free of CR, LF and NUL) to `match_md`, and the
rest of the line stays in the stream and is read by the following `fgets` calls like a
further line; so when the rest `b` has between 1 and 1023 bytes (free of CR, LF and
NUL) the line gives two nodes, one for the leading 1023 bytes and one for `b`. -/
theorem over_long_line_split (a rest : List Char) (hnul : '\x00' ∉ a) (hcr : '\r' ∉ a)
    (hlf : '\n' ∉ a) (hlen : a.length = 1023) (doc : List MdNode) (f : Nat)
    (hf : (a ++ rest).length < f) :
    read_loop md_regexes_create f (a ++ rest) doc =
        read_loop md_regexes_create (rest.length + 1) rest (match_md md_regexes_create a doc) ∧
      (∀ b, b ≠ [] → '\x00' ∉ b → '\r' ∉ b → '\n' ∉ b → b.length ≤ 1023 →
          rest = b ++ ['\n'] →
        read_loop md_regexes_create f (a ++ rest) doc =
          some (match_md md_regexes_create b (match_md md_regexes_create a doc))) := by
  have ha : a ≠ [] := by
    intro h
    rw [h] at hlen
    simp at hlen
  have hstep : read_loop md_regexes_create f (a ++ rest) doc =
      read_loop md_regexes_create (rest.length + 1) rest (match_md md_regexes_create a doc) := by
    rw [read_chunk_cut md_regexes_create rest f doc hlf hlen hf,
      stripped_of_not_mem hnul hcr hlf, if_pos ha]
  refine ⟨hstep, fun b hb hbnul hbcr hblf hblen hrest => ?_⟩
  rw [hstep, hrest]
  have := read_raw_line b hbnul hbcr hblf hblen (match_md md_regexes_create a doc)
    (b ++ ['\n']) (by simp)
  rw [this, if_pos hb]

/-- Witness for C14: 1023 bytes `a` followed by `b` and a newline give the node of
the 1023 bytes and then the node of `b`. -/
theorem over_long_line_split_witness :
    '\x00' ∉ List.replicate 1023 'a' ∧ '\r' ∉ List.replicate 1023 'a' ∧
      '\n' ∉ List.replicate 1023 'a' ∧ (List.replicate 1023 'a').length = 1023 ∧
      read_loop md_regexes_create 1026 (List.replicate 1023 'a' ++ ['b', '\n']) [] =
        some (match_md md_regexes_create ['b']
          (match_md md_regexes_create (List.replicate 1023 'a') [])) :=
  ⟨not_mem_replicate_of_ne (by decide) _, not_mem_replicate_of_ne (by decide) _,
    not_mem_replicate_of_ne (by decide) _, List.length_replicate _ _,
    (over_long_line_split (List.replicate 1023 'a') ['b', '\n']
      (not_mem_replicate_of_ne (by decide) _) (not_mem_replicate_of_ne (by decide) _)
      (not_mem_replicate_of_ne (by decide) _) (List.length_replicate _ _) [] 1026
      (by rw [List.length_append, List.length_replicate]; decide)).2 ['b'] (by decide)
      (by decide) (by decide) (by decide) (by decide) rfl⟩

/-- C14 as stated fails: the input line of 1024 `b` followed by a newline gives two
nodes, the first built from the leading 1023 bytes and the second from the byte that
did not fit; the rest of the line is not discarded. -/
theorem over_long_line_two_nodes :
    read_loop md_regexes_create ((List.replicate 1023 'b' ++ ['b', '\n']).length + 1)
        (List.replicate 1023 'b' ++ ['b', '\n']) [] =
      some [⟨.MD_TYPE_TEXT, List.replicate 1023 'b'⟩, ⟨.MD_TYPE_TEXT, ['b']⟩] :=
  read_loop_run_1024 'b' (by decide) (by decide) (by decide) (by decide) (by decide)
    (by decide) (by decide) ['\n'] (Or.inr rfl)

theorem md_node_to_html_eq_snprintf (node : MdNode) (n : Nat) :
    md_node_to_html node n = snprintf n (template node) := by
  obtain ⟨ty, c⟩ := node
  cases ty <;> rfl

/-- C15. The rendered fragment is bounded by the output buffer: with the 1024-byte
buffer of `write_md_to_html` the result of `md_node_to_html` is at most 1023 bytes
long, is a prefix of the full template expansion of the node's kind, and equals the
full expansion exactly when that expansion is at most 1023 bytes; for a plain-text
node that is when the payload is at most 1016 bytes. -/
theorem md_node_to_html_bounded (node : MdNode) :
    (md_node_to_html node MAX_LINE_SIZE).length ≤ 1023 ∧
      md_node_to_html node MAX_LINE_SIZE <+: template node ∧
      (md_node_to_html node MAX_LINE_SIZE = template node ↔ (template node).length ≤ 1023) ∧
      (node.type = .MD_TYPE_TEXT →
        (md_node_to_html node MAX_LINE_SIZE = node.content ++ "<br />\n".toList ↔
          node.content.length ≤ 1016)) := by
  have hiff : md_node_to_html node MAX_LINE_SIZE = template node ↔
      (template node).length ≤ 1023 := by
    rw [md_node_to_html_eq_snprintf]
    simp only [snprintf, MAX_LINE_SIZE]
    constructor
    · intro h
      have := congrArg List.length h
      rw [List.length_take] at this
      omega
    · exact List.take_of_length_le
  refine ⟨?_, ?_, hiff, ?_⟩
  · rw [md_node_to_html_eq_snprintf]
    simp only [snprintf, MAX_LINE_SIZE, List.length_take]
    omega
  · rw [md_node_to_html_eq_snprintf]
    exact List.take_prefix _ _
  · intro hty
    have ht : template node = node.content ++ "<br />\n".toList := by
      obtain ⟨ty, c⟩ := node
      simp only at hty
      subst hty
      rfl
    rw [← ht, hiff, ht]
    simp only [List.length_append]
    have : "<br />\n".toList.length = 7 := rfl
    omega

/-! ## What a successful search says about the line -/

/-- A successful search splits the line into the text before the match and the text
from the match on; the split is the preferred one there and no earlier start has a
match. -/
theorem search_some {P : List Piece} {s : List Char} {i j : Nat} {K : List Nat}
    (h : search P i s = some (j, K)) :
    ∃ a w, s = a ++ w ∧ j = i + a.length ∧ best (splits P w) = some K ∧
      ∀ a2, a2 ≠ [] → a2 <:+ a → splits P (a2 ++ w) = [] := by
  induction s generalizing i with
  | nil =>
    simp only [search, Option.map_eq_some'] at h
    obtain ⟨x, hx, hx2⟩ := h
    simp only [Prod.mk.injEq] at hx2
    obtain ⟨rfl, rfl⟩ := hx2
    refine ⟨[], [], rfl, rfl, hx, fun a2 h2 hs => ?_⟩
    exact absurd (List.suffix_nil.mp hs) h2
  | cons c s ih =>
    simp only [search] at h
    cases hb : best (splits P (c :: s)) with
    | some x =>
      rw [hb] at h
      simp only [Option.some.injEq, Prod.mk.injEq] at h
      obtain ⟨rfl, rfl⟩ := h
      refine ⟨[], c :: s, rfl, rfl, hb, fun a2 h2 hs => ?_⟩
      exact absurd (List.suffix_nil.mp hs) h2
    | none =>
      rw [hb] at h
      obtain ⟨a, w, rfl, rfl, hbest, hleft⟩ := ih h
      refine ⟨c :: a, w, rfl, by simp only [List.length_cons]; omega, hbest, fun a2 h2 hs => ?_⟩
      rcases List.suffix_cons_iff.mp hs with rfl | hs'
      · exact best_eq_none.mp hb
      · exact hleft a2 h2 hs'

theorem length_of_mem_splits {P : List Piece} {w : List Char} {K : List Nat}
    (h : K ∈ splits P w) : K.length = P.length := by
  induction P generalizing w K with
  | nil => rw [mem_splits_nil] at h; subst h; rfl
  | cons p P ih =>
    obtain ⟨u, w', rest, rfl, -, -, rfl, hrest⟩ := mem_splits_cons.mp h
    simp [ih hrest]

/-- A pattern that ends with `.*` can always be matched up to the end of the text. -/
theorem exists_full_split {P : List Piece} {w : List Char} {K : List Nat}
    (h : K ∈ splits (P ++ [⟨.dot, .star⟩]) w) :
    ∃ K' ∈ splits (P ++ [⟨.dot, .star⟩]) w, K'.sum = w.length := by
  induction P generalizing w K with
  | nil =>
    refine ⟨[w.length], ?_, by simp⟩
    exact mem_splits_dot.mpr ⟨w, [], [], by simp, rfl, rfl, by simp [splits]⟩
  | cons p P ih =>
    obtain ⟨u, w', rest, rfl, hall, hd, rfl, hrest⟩ := mem_splits_cons.mp h
    obtain ⟨K', hK', hsum⟩ := ih hrest
    refine ⟨u.length :: K', ?_, by simp [hsum]⟩
    exact mem_splits_cons.mpr ⟨u, w', K', rfl, hall, hd, rfl, hK'⟩

/-- The preferred match of a pattern that ends with `.*` reaches the end of the
text. -/
theorem best_sum_full {P : List Piece} {w : List Char} {K : List Nat}
    (h : best (splits (P ++ [⟨.dot, .star⟩]) w) = some K) : K.sum = w.length := by
  have hmem := best_mem h
  obtain ⟨K', hK', hsum⟩ := exists_full_split hmem
  have hge := best_ge h K' hK'
  have hle := sum_le_of_mem_splits hmem
  rw [atLeast_iff] at hge
  omega

theorem sum_take_le (K : List Nat) (n : Nat) : (K.take n).sum ≤ K.sum := by
  have := List.sum_take_add_sum_drop K n
  omega

theorem sum_take_drop_le (K : List Nat) (p q : Nat) :
    (K.take p).sum + ((K.drop p).take q).sum ≤ K.sum := by
  have h1 := List.sum_take_add_sum_drop K p
  have h2 := sum_take_le (K.drop p) q
  omega

/-- The offsets `regexec` reports for a pattern with a group. -/
theorem regexec_some {r : regex_t} {g : List Piece} {s : List Char} {m0 m1 : regmatch_t}
    (hg : r.grp = some g) (h : regexec r s = some (m0, m1)) :
    ∃ a w K, s = a ++ w ∧ best (splits r.pieces w) = some K ∧
      m1.rm_so = ((a.length + (K.take r.pre.length).sum : Nat) : Int) ∧
      m1.rm_eo = ((a.length + (K.take r.pre.length).sum +
        ((K.drop r.pre.length).take g.length).sum : Nat) : Int) := by
  unfold regexec at h
  cases hs : search r.pieces 0 s with
  | none => rw [hs] at h; simp at h
  | some v =>
    obtain ⟨i, K⟩ := v
    rw [hs] at h
    simp only [hg, Option.some.injEq, Prod.mk.injEq] at h
    obtain ⟨a, w, rfl, rfl, hbest, -⟩ := search_some hs
    refine ⟨a, w, K, rfl, hbest, ?_, ?_⟩
    · rw [← h.2]; simp
    · rw [← h.2]; simp

/-- Every capturing pattern starts with an ordinary character that is outside its
group. -/
theorem capturing_shape {re : regex_t} (h : re ∈ capturingPatterns md_regexes_create) :
    ∃ c P Q g, re.pieces = lit c :: P ∧ re.pre = lit c :: Q ∧ re.grp = some g := by
  simp only [capturingPatterns, List.mem_cons, List.mem_singleton, List.not_mem_nil,
    or_false] at h
  rcases h with rfl | rfl | rfl | rfl | rfl | rfl <;> exact ⟨_, _, _, _, rfl, rfl, rfl⟩

/-- C18. The capture-size guard is unreachable for lines the reader can deliver: for
every line of at most 1023 bytes and each of the six capturing patterns, a match has a
capture of at most 1022 bytes, so `match_single_capture` returns false on a match
exactly when the capture is empty, and a copied capture has the reported length and
fits the 1024-byte buffer with its terminator. -/
theorem capture_guard_unreachable (L : List Char) (hlen : L.length ≤ 1023) (re : regex_t)
    (hre : re ∈ capturingPatterns md_regexes_create) (m0 m1 : regmatch_t)
    (hm : regexec re L = some (m0, m1)) :
    0 ≤ m1.rm_so ∧ m1.rm_so ≤ m1.rm_eo ∧ m1.rm_eo - m1.rm_so ≤ 1022 ∧
      (match_single_capture re L MAX_CAPTURE_SIZE = none ↔ m1.rm_eo - m1.rm_so = 0) ∧
      (∀ cap, match_single_capture re L MAX_CAPTURE_SIZE = some cap →
        (cap.length : Int) = m1.rm_eo - m1.rm_so ∧ cap.length + 1 ≤ MAX_CAPTURE_SIZE) := by
  obtain ⟨c, P, Q, g, hp, hpre, hg⟩ := capturing_shape hre
  obtain ⟨a, w, K, rfl, hbest, hso, heo⟩ := regexec_some hg hm
  have hmem := best_mem hbest
  have hsum := sum_le_of_mem_splits hmem
  have hparts := sum_take_drop_le K re.pre.length g.length
  have hfirst : 1 ≤ (K.take re.pre.length).sum := by
    rw [hp] at hmem
    obtain ⟨w', rest, -, rfl, -⟩ := mem_splits_lit.mp hmem
    rw [hpre]
    simp only [List.length_cons, List.take_succ_cons, List.sum_cons]
    omega
  simp only [List.length_append] at hlen
  generalize hs1 : (K.take re.pre.length).sum = s1 at hso heo hparts hfirst
  generalize hs2 : ((K.drop re.pre.length).take g.length).sum = s2 at heo hparts
  have hmsc : match_single_capture re (a ++ w) MAX_CAPTURE_SIZE =
      if 0 < s2 then some (strncpy ((a ++ w).drop (a.length + s1)) s2) else none := by
    simp only [match_single_capture, hm, size_guard, hso, heo]
    have h1 : ¬ (((a.length + s1 : Nat) : Int) = -1) := by omega
    have h2 : ¬ (((a.length + s1 + s2 : Nat) : Int) = -1) := by omega
    have h3 : ((a.length + s1 + s2 : Nat) : Int) - ((a.length + s1 : Nat) : Int) = (s2 : Int) := by
      omega
    simp only [ne_eq, h1, h2, not_false_eq_true, and_self, if_true, h3, Int.toNat_ofNat]
    by_cases hpos : 0 < s2
    · rw [if_pos hpos, if_pos (by omega)]
    · rw [if_neg hpos, if_neg (by omega)]
  refine ⟨by omega, by omega, by omega, ?_, ?_⟩
  · rw [hmsc, hso, heo]
    by_cases hpos : 0 < s2
    · rw [if_pos hpos]
      simp only [reduceCtorEq, false_iff]
      omega
    · rw [if_neg hpos]
      simp only [true_iff]
      omega
  · intro cap hcap
    rw [hmsc] at hcap
    by_cases hpos : 0 < s2
    · rw [if_pos hpos] at hcap
      simp only [Option.some.injEq] at hcap
      subst hcap
      simp only [strncpy, List.length_take, List.length_drop, List.length_append, MAX_CAPTURE_SIZE]
      rw [hso, heo]
      omega
    · rw [if_neg hpos] at hcap
      simp at hcap

/-- Witness for C18: on `# Title` the first heading pattern reports the group at
offsets 2 to 7, and the capture `Title` is copied. -/
theorem capture_guard_unreachable_witness :
    "# Title".toList.length ≤ 1023 ∧
      md_regexes_create.heading_1 ∈ capturingPatterns md_regexes_create ∧
      regexec md_regexes_create.heading_1 "# Title".toList = some (⟨0, 7⟩, ⟨2, 7⟩) ∧
      ((7 : Int) - 2 ≤ 1022) ∧
      match_single_capture md_regexes_create.heading_1 "# Title".toList MAX_CAPTURE_SIZE ≠ none :=
  ⟨by decide, by simp [capturingPatterns], by decide,
    (capture_guard_unreachable "# Title".toList (by decide) md_regexes_create.heading_1
      (by simp [capturingPatterns]) ⟨0, 7⟩ ⟨2, 7⟩ (by decide)).2.2.1,
    fun h => absurd ((capture_guard_unreachable "# Title".toList (by decide)
      md_regexes_create.heading_1 (by simp [capturingPatterns]) ⟨0, 7⟩ ⟨2, 7⟩
      (by decide)).2.2.2.1.mp h) (by decide)⟩

/-- What a match of a heading pattern looks like: the hashes, then all the spaces that
follow them, then the group up to the end of the line; and what
`match_single_capture` returns then. -/
theorem heading_result (j : Nat) {L : List Char} {i : Nat} {K : List Nat}
    (h : search (headingRe j).pieces 0 L = some (i, K)) :
    ∃ a k u, L = a ++ (List.replicate j '#' ++ (List.replicate k ' ' ++ u)) ∧ 1 ≤ k ∧
      (∀ a2, a2 ≠ [] → a2 <:+ a →
        splits (headingRe j).pieces
          (a2 ++ (List.replicate j '#' ++ (List.replicate k ' ' ++ u))) = []) ∧
      match_single_capture (headingRe j) L MAX_CAPTURE_SIZE =
        if 0 < u.length ∧ u.length < 1023 then some u else none := by
  obtain ⟨a, w, rfl, hi, hbest, hleft⟩ := search_some h
  have hpieces : (headingRe j).pieces =
      (List.replicate j (lit '#') ++ [⟨.chr ' ', .plus⟩]) ++ [⟨.dot, .star⟩] := by
    rw [headingRe_pieces]; simp
  have hfull : K.sum = w.length := by
    rw [hpieces] at hbest
    exact best_sum_full hbest
  have hmem := best_mem hbest
  rw [headingRe_pieces] at hmem
  obtain ⟨w1, rest, rfl, rfl, hrest⟩ := mem_splits_lits.mp hmem
  obtain ⟨k, u, w2, rfl, hd, rfl⟩ := mem_splits_tail.mp hrest
  have hk : 1 ≤ k := by simpa [Dup.allows] using hd
  have hw2 : w2 = [] := by
    simp only [List.sum_append, List.sum_replicate, List.sum_cons, List.sum_nil,
      List.length_append, List.length_replicate, smul_eq_mul] at hfull
    exact List.length_eq_zero.mp (by omega)
  subst hw2
  rw [List.append_nil] at h hleft ⊢
  refine ⟨a, k, u, rfl, hk, hleft, ?_⟩
  have hlens := take_drop_lens j k u.length
  apply msc_of_search (g := [⟨.dot, .star⟩])
    (x := a ++ (List.replicate j '#' ++ List.replicate k ' ')) (z := []) rfl h
  · simp
  · simp only [headingRe, List.length_append, List.length_replicate, List.length_singleton]
    have := hlens.1
    omega
  · simp only [headingRe, List.length_append, List.length_replicate, List.length_singleton]
    rw [hlens.2]

/-- A capture of a heading pattern is a non-empty suffix of the line, shorter than
1023 bytes. -/
theorem msc_heading_sound (j : Nat) {L cap : List Char}
    (h : match_single_capture (headingRe j) L MAX_CAPTURE_SIZE = some cap) :
    cap ≠ [] ∧ cap <:+ L ∧ cap.length < 1023 := by
  cases hs : search (headingRe j).pieces 0 L with
  | none =>
    have : regexec (headingRe j) L = none := by simp [regexec, hs]
    rw [msc_eq_none_of_regexec this] at h
    simp at h
  | some v =>
    obtain ⟨i, K⟩ := v
    obtain ⟨a, k, u, rfl, -, -, hmsc⟩ := heading_result j hs
    rw [hmsc] at h
    by_cases hc : 0 < u.length ∧ u.length < 1023
    · rw [if_pos hc] at h
      simp only [Option.some.injEq] at h
      subst h
      refine ⟨List.length_pos.mp hc.1, ?_, hc.2⟩
      exact ⟨a ++ (List.replicate j '#' ++ List.replicate k ' '), by simp⟩
    · rw [if_neg hc] at h
      simp at h

/-- The first heading pattern captures a non-empty text on every line that has,
somewhere, a `#` followed by spaces and a character that is not a space. -/
theorem msc_heading_1_complete (a z : List Char) (n : Nat) (c : Char) (hc : c ≠ ' ')
    (hlen : (a ++ '#' :: (List.replicate (n + 1) ' ' ++ c :: z)).length ≤ 1023) :
    ∃ cap, match_single_capture (headingRe 1)
      (a ++ '#' :: (List.replicate (n + 1) ' ' ++ c :: z)) MAX_CAPTURE_SIZE = some cap := by
  have hsplit : [1, n + 1, (c :: z).length] ∈ splits (headingRe 1).pieces
      ('#' :: (List.replicate (n + 1) ' ' ++ c :: z)) := by
    rw [headingRe_pieces]
    exact mem_splits_lits.mpr ⟨_, _, rfl, rfl, tail_mem (by simp [Dup.allows])⟩
  have hsome := search_ne_none (P := (headingRe 1).pieces) 0
    (List.suffix_append a ('#' :: (List.replicate (n + 1) ' ' ++ c :: z)))
    (List.ne_nil_of_mem hsplit)
  cases hs : search (headingRe 1).pieces 0 (a ++ '#' :: (List.replicate (n + 1) ' ' ++ c :: z)) with
  | none => exact absurd hs hsome
  | some v =>
    obtain ⟨i, K⟩ := v
    obtain ⟨a', k, u, hL, hk, hleft, hmsc⟩ := heading_result 1 hs
    rw [hmsc]
    have hu : u ≠ [] := by
      rintro rfl
      rw [List.append_nil] at hL hleft
      have hin : ∀ d : List Char,
          d ++ '#' :: (List.replicate (n + 1) ' ' ++ c :: z) =
            List.replicate 1 '#' ++ List.replicate k ' ' → False := by
        intro d hd
        have hmemc : c ∈ List.replicate k ' ' := by
          cases d with
          | nil =>
            simp only [List.nil_append, List.replicate_one, List.singleton_append,
              List.cons.injEq, true_and] at hd
            rw [← hd]; simp
          | cons x d =>
            simp only [List.cons_append, List.replicate_one, List.singleton_append,
              List.cons.injEq, List.nil_append] at hd
            rw [← hd.2]; simp
        exact hc (List.eq_of_mem_replicate hmemc)
      rcases List.append_eq_append_iff.mp hL with ⟨d, ha', hw⟩ | ⟨d, ha, hw⟩
      · by_cases hd : d = []
        · subst hd
          exact hin [] (by simpa using hw)
        · have := hleft d hd (by rw [ha']; exact List.suffix_append a d)
          rw [← hw] at this
          exact List.ne_nil_of_mem hsplit this
      · exact hin d hw.symm
    have hlen2 : u.length < 1023 := by
      have := congrArg List.length hL
      have hlen' := hlen
      simp only [List.length_append, List.length_replicate, List.length_cons] at this hlen'
      omega
    exact ⟨u, if_pos ⟨List.length_pos.mpr hu, hlen2⟩⟩

/-- C16 (amended). Heading markers are recognised anywhere in the line: every line of
at most 1023 bytes that contains, at any position, a `#` immediately followed by one
or more spaces and then a character that is not a space is classified as a heading
(Heading1, Heading2 or Heading3) whose payload is a non-empty suffix of the line; the
text before the marker is dropped. -/
theorem heading_anywhere (a z : List Char) (n : Nat) (c : Char) (hc : c ≠ ' ')
    (hlen : (a ++ '#' :: (List.replicate (n + 1) ' ' ++ c :: z)).length ≤ 1023)
    (doc : List MdNode) :
    ∃ ty cap,
      match_md md_regexes_create (a ++ '#' :: (List.replicate (n + 1) ' ' ++ c :: z)) doc =
        doc ++ [⟨ty, cap⟩] ∧
      (ty = .MD_TYPE_HEADING_1 ∨ ty = .MD_TYPE_HEADING_2 ∨ ty = .MD_TYPE_HEADING_3) ∧
      cap ≠ [] ∧ cap <:+ a ++ '#' :: (List.replicate (n + 1) ' ' ++ c :: z) := by
  have hcopy : ∀ cap : List Char, cap.length < 1023 → strncpy cap MAX_LINE_SIZE = cap :=
    fun cap h => strncpy_of_le (by simp only [MAX_LINE_SIZE]; omega)
  cases h3 : match_single_capture md_regexes_create.heading_3
      (a ++ '#' :: (List.replicate (n + 1) ' ' ++ c :: z)) MAX_CAPTURE_SIZE with
  | some cap =>
    obtain ⟨hne, hsuf, hl⟩ := msc_heading_sound 3 h3
    exact ⟨_, cap, by rw [match_md_heading_3 _ _ _ h3, hcopy cap hl], by simp, hne, hsuf⟩
  | none =>
    cases h2 : match_single_capture md_regexes_create.heading_2
        (a ++ '#' :: (List.replicate (n + 1) ' ' ++ c :: z)) MAX_CAPTURE_SIZE with
    | some cap =>
      obtain ⟨hne, hsuf, hl⟩ := msc_heading_sound 2 h2
      exact ⟨_, cap, by rw [match_md_heading_2 _ _ _ h3 h2, hcopy cap hl], by simp, hne, hsuf⟩
    | none =>
      obtain ⟨cap, h1⟩ := msc_heading_1_complete a z n c hc hlen
      obtain ⟨hne, hsuf, hl⟩ := msc_heading_sound 1 h1
      exact ⟨_, cap, by rw [match_md_heading_1 _ _ _ h3 h2 h1, hcopy cap hl], by simp, hne, hsuf⟩

/-- Witness for C16: `a # b` is the heading of level 1 with payload `b`. -/
theorem heading_anywhere_witness :
    'b' ≠ ' ' ∧ ("a ".toList ++ '#' :: (List.replicate (0 + 1) ' ' ++ 'b' :: [])).length ≤ 1023 ∧
      match_md md_regexes_create "a # b".toList [] = [⟨.MD_TYPE_HEADING_1, "b".toList⟩] ∧
      ∃ ty cap,
        match_md md_regexes_create
            ("a ".toList ++ '#' :: (List.replicate (0 + 1) ' ' ++ 'b' :: [])) [] =
          [] ++ [⟨ty, cap⟩] ∧
        (ty = .MD_TYPE_HEADING_1 ∨ ty = .MD_TYPE_HEADING_2 ∨ ty = .MD_TYPE_HEADING_3) ∧
        cap ≠ [] ∧ cap <:+ "a ".toList ++ '#' :: (List.replicate (0 + 1) ' ' ++ 'b' :: []) :=
  ⟨by decide, by decide, by decide,
    heading_anywhere "a ".toList [] 0 'b' (by decide) (by decide) []⟩

/-- C16 as stated fails when the character after the spaces is itself a space and
nothing else follows: the line of `#` and two spaces contains a `#`, one space and a
further character, but the capture is empty and the line is plain text. -/
theorem heading_marker_only_spaces :
    "#  ".toList = [] ++ '#' :: (List.replicate (0 + 1) ' ' ++ ' ' :: []) ∧
      "#  ".toList.length ≤ 1023 ∧
      match_md md_regexes_create "#  ".toList [] = [⟨.MD_TYPE_TEXT, "#  ".toList⟩] := by
  decide

/-- The thematic-break pattern matches every line that has, somewhere, three hyphens
separated by optional spaces. -/
theorem line_matches_anywhere (pre rest : List Char) (b c : Nat) :
    match_no_capture md_regexes_create.line (pre ++ thematicLine 0 b c rest) = true := by
  have hmem : [0, 1, b, 1, c, 1, rest.length] ∈ splits md_regexes_create.line.pieces
      (thematicLine 0 b c rest) := by
    rw [line_pieces]
    refine mem_splits_chr.mpr ⟨0, _, _, rfl, rfl, rfl, mem_splits_lit.mpr ⟨_, _, rfl, rfl, ?_⟩⟩
    refine mem_splits_chr.mpr ⟨b, _, _, rfl, rfl, rfl, mem_splits_lit.mpr ⟨_, _, rfl, rfl, ?_⟩⟩
    refine mem_splits_chr.mpr ⟨c, _, _, rfl, rfl, rfl, mem_splits_lit.mpr ⟨_, _, rfl, rfl, ?_⟩⟩
    exact mem_splits_dot.mpr ⟨rest, [], [], by simp, rfl, rfl, by simp [splits]⟩
  have hs := search_ne_none (P := md_regexes_create.line.pieces) 0
    (List.suffix_append pre (thematicLine 0 b c rest)) (List.ne_nil_of_mem hmem)
  simp only [match_no_capture, regexec]
  cases h : search md_regexes_create.line.pieces 0 (pre ++ thematicLine 0 b c rest) with
  | none => exact absurd h hs
  | some v => rfl

/-- C17. Thematic break outranks emphasis and plain text wherever the hyphens occur:
a line without `#` and `>` that contains, at any position, three `-` separated only by
zero or more spaces is classified ThematicBreak with empty payload, whatever the rest
of the line; and no line with such a hyphen run, with or without `#` and `>`, is
classified TextBold, TextItalic or PlainText. -/
theorem thematic_break_anywhere (pre rest : List Char) (b c : Nat) (doc : List MdNode) :
    ('#' ∉ pre ++ thematicLine 0 b c rest → '>' ∉ pre ++ thematicLine 0 b c rest →
      match_md md_regexes_create (pre ++ thematicLine 0 b c rest) doc =
        doc ++ [⟨.MD_TYPE_LINE, []⟩]) ∧
    lastType (match_md md_regexes_create (pre ++ thematicLine 0 b c rest) doc) ≠
      some .MD_TYPE_TEXT_BOLD ∧
    lastType (match_md md_regexes_create (pre ++ thematicLine 0 b c rest) doc) ≠
      some .MD_TYPE_TEXT_ITALICS ∧
    lastType (match_md md_regexes_create (pre ++ thematicLine 0 b c rest) doc) ≠
      some .MD_TYPE_TEXT := by
  have hl := line_matches_anywhere pre rest b c
  refine ⟨fun h1 h2 => ?_, ?_, ?_, ?_⟩
  · exact match_md_line _ _ _ (msc_heading_none_of_not_mem 3 (by decide) h1)
      (msc_heading_none_of_not_mem 2 (by decide) h1)
      (msc_heading_none_of_not_mem 1 (by decide) h1) (msc_block_quote_none h2 _) hl
  all_goals
    rw [lastType_match_md, hl]
    simp only [if_true]
    split_ifs <;> simp

/-- Witness for C17: `**a---b**` and `text --- text` are thematic breaks. -/
theorem thematic_break_anywhere_witness :
    "**a---b**".toList = "**a".toList ++ thematicLine 0 0 0 "b**".toList ∧
      match_md md_regexes_create ("**a".toList ++ thematicLine 0 0 0 "b**".toList) [] =
        [] ++ [⟨.MD_TYPE_LINE, []⟩] ∧
      "text --- text".toList = "text ".toList ++ thematicLine 0 0 0 " text".toList ∧
      match_md md_regexes_create ("text ".toList ++ thematicLine 0 0 0 " text".toList) [] =
        [] ++ [⟨.MD_TYPE_LINE, []⟩] :=
  ⟨by decide,
    (thematic_break_anywhere "**a".toList "b**".toList 0 0 []).1 (by decide) (by decide),
    by decide,
    (thematic_break_anywhere "text ".toList " text".toList 0 0 []).1 (by decide) (by decide)⟩

end MdParser
